import Mathlib

/-
Verification development for the intersectomics package.

The Python sources under src/intersectomics are shallowly embedded here:
  - graph.py        : remove_G_pair_isolates, make_corr_graph, make_intersection_graph
  - run_parallel.py : bootstrap_spearman_corr_parallel (pair generation, result folding,
                      configuration-error path)
  - utils.py        : combinations_count (and the duplicate remove_G_pair_isolates)
  - bootstrap_corr.py : _calc_norm_dict, bootstrap_spearman_correlation

Floating-point NaN is modelled by Option (none = NaN, missing value); machine reals are
modelled by ℚ.  Graph node labels are modelled by ℕ (any hashable label works in the
source; only equality and the sort order used by numpy.unique are relevant).
External-library numerics that the source calls (scipy random draws, the exact p-value
kernels, the Louvain community detection of networkx) are modelled by explicit oracle
parameters; all logic belonging to the repository itself is embedded concretely.
-/

namespace Intersectomics

/-! ## Generic list helpers -/

/-- Insertion of an element into a list with respect to a boolean comparison;
building block of the sorting model (the source sorts via pandas sort_values and
numpy.unique; only the multiset of elements matters to any claim). -/
def insertLe {α : Type} (le : α → α → Bool) (x : α) : List α → List α
  | [] => [x]
  | y :: ys => if le x y then x :: y :: ys else y :: insertLe le x ys

/-- Insertion sort with respect to a boolean comparison. -/
def insSort {α : Type} (le : α → α → Bool) : List α → List α
  | [] => []
  | x :: xs => insertLe le x (insSort le xs)

theorem insertLe_perm {α : Type} (le : α → α → Bool) (x : α) (l : List α) :
    (insertLe le x l).Perm (x :: l) := by
  induction l with
  | nil => exact List.Perm.refl _
  | cons y ys ih =>
      rw [insertLe]
      by_cases h : le x y
      · rw [if_pos h]
      · rw [if_neg h]
        exact (ih.cons y).trans (List.Perm.swap x y ys)

theorem insSort_perm {α : Type} (le : α → α → Bool) (l : List α) :
    (insSort le l).Perm l := by
  induction l with
  | nil => simp [insSort]
  | cons x xs ih => exact (insertLe_perm le x (insSort le xs)).trans (ih.cons x)

theorem mem_insSort {α : Type} (le : α → α → Bool) (l : List α) (a : α) :
    a ∈ insSort le l ↔ a ∈ l :=
  (insSort_perm le l).mem_iff

theorem insSort_nodup {α : Type} (le : α → α → Bool) (l : List α) (h : l.Nodup) :
    (insSort le l).Nodup := ((insSort_perm le l).nodup_iff).mpr h

/-- Embedding of itertools.combinations(l, 2): all ordered pairs (l[i], l[j]) with
i < j, emitted in the combinatorial order of the input sequence
(run_parallel.py line 108). -/
def combinations2 {α : Type} : List α → List (α × α)
  | [] => []
  | x :: xs => (xs.map fun y => (x, y)) ++ combinations2 xs

/-- Embedding of utils.combinations_count (utils.py lines 40-53): zero when r exceeds
n, otherwise the factorial quotient. -/
def combinations_count (n r : Nat) : Nat :=
  if r > n then 0 else n.factorial / (r.factorial * (n - r).factorial)

/-! ## Data-frame model

A correlation / p-value matrix is a table with row labels, column labels, and a
possibly-missing rational value at each (row, column) position; none models both a
NaN entry and a position outside the populated part of the table (pandas aligned
lookup yields NaN in both cases). -/

structure DF where
  rows : List Nat
  cols : List Nat
  val : Nat → Nat → Option ℚ

/-! ## Correlation-graph model -/

/-- Undirected graph as built by the source via networkx: node list in insertion
order, edge list in canonical orientation (first component ≤ second, which is
the orientation networkx reports because make_corr_graph inserts its nodes in
numpy.unique sorted order before adding any edge), and the weight attribute. -/
structure CGraph where
  nodes : List Nat
  edges : List (Nat × Nat)
  w : Nat → Nat → Option ℚ

/-- Embedding of the mask corr[pvalues <= pvalue_cutoff] (graph.py line 61): an
entry survives the mask only where the p-value is present and at most the cutoff;
a masked-out or missing position is NaN (none). -/
def maskedVal (corr pvals : DF) (pcut : ℚ) (r c : Nat) : Option ℚ :=
  match pvals.val r c with
  | some p => if p ≤ pcut then corr.val r c else none
  | none => none

/-- One melted position (graph.py line 61-64): the retained triple at (r, c), if
its masked value is present and its absolute value reaches corr_cutoff. -/
def keepEntry (corr pvals : DF) (pcut ccut : ℚ) (r c : Nat) : Option (Nat × Nat × ℚ) :=
  match maskedVal corr pvals pcut r c with
  | some v => if ccut ≤ |v| then some (r, c, v) else none
  | none => none

/-- Embedding of graph.py lines 61-64: melt the masked matrix into
(biomolecule1, biomolecule2, value) triples in column-major order, drop missing
values, and keep the triples whose absolute value reaches corr_cutoff. -/
def signiEntries (corr pvals : DF) (pcut ccut : ℚ) : List (Nat × Nat × ℚ) :=
  corr.cols.flatMap fun c =>
    corr.rows.filterMap fun r => keepEntry corr pvals pcut ccut r c

/-- Embedding of graph.py line 63: sort_values(by='abs_value') — the retained
triples in ascending order of absolute value. -/
def sortedEntries (corr pvals : DF) (pcut ccut : ℚ) : List (Nat × Nat × ℚ) :=
  insSort (fun x y => decide (|x.2.2| ≤ |y.2.2|)) (signiEntries corr pvals pcut ccut)

/-- One networkx G.add_edge(a, b, weight=x) on the symmetric weight map: the pair
gets weight x in both orientations, everything else is unchanged. -/
def addEdgeW (w : Nat → Nat → Option ℚ) (a b : Nat) (x : ℚ) : Nat → Nat → Option ℚ :=
  fun u v => if (u = a ∧ v = b) ∨ (u = b ∧ v = a) then some x else w u v

/-- Body of the edge-insertion loop (graph.py lines 70-79): a triple with a
non-negative correlation becomes an add_edge weighted by the absolute value
(the README-documented sign selection); a negative one is skipped. -/
def edgeStep (m : Nat → Nat → Option ℚ) (e : Nat × Nat × ℚ) : Nat → Nat → Option ℚ :=
  if 0 ≤ e.2.2 then addEdgeW m e.1 e.2.1 |e.2.2| else m

/-- Embedding of the edge-insertion loop of graph.py lines 70-79: walk the sorted
triples and, for each non-negative correlation, add an edge weighted by the
absolute value (a later insertion for the same pair overwrites the weight). -/
def corrW (corr pvals : DF) (pcut ccut : ℚ) : Nat → Nat → Option ℚ :=
  (sortedEntries corr pvals pcut ccut).foldl edgeStep (fun _ _ => none)

/-- Embedding of graph.py line 68: the node set added before the edge loop — the
numpy.unique (sorted, distinct) endpoints of all retained triples, negative ones
included. -/
def nodes0 (corr pvals : DF) (pcut ccut : ℚ) : List Nat :=
  insSort (fun a b => decide (a ≤ b))
    (((signiEntries corr pvals pcut ccut).map fun e => e.1)
      ++ ((signiEntries corr pvals pcut ccut).map fun e => e.2.1)).dedup

/-- Edge list of a symmetric weight map over a node list, in the canonical
orientation (first ≤ second); each undirected edge appears exactly once. -/
def edgesOf (ns : List Nat) (w : Nat → Nat → Option ℚ) : List (Nat × Nat) :=
  ns.flatMap fun u =>
    ns.filterMap fun v => if u ≤ v ∧ (w u v).isSome then some (u, v) else none

/-- Embedding of graph.py make_corr_graph (lines 40-83): threshold the matrix pair
into an undirected weighted graph, then drop isolated nodes (line 82). -/
def make_corr_graph (corr pvals : DF) (pcut ccut : ℚ) : CGraph :=
  let w := corrW corr pvals pcut ccut
  let ns0 := nodes0 corr pvals pcut ccut
  let es := edgesOf ns0 w
  { nodes := ns0.filter fun n => es.any fun e => e.1 = n ∨ e.2 = n
    edges := es
    w := w }

/-- Membership of the undirected edge {a, b} in a graph (either orientation of the
stored canonical pair). -/
def edgeMem (G : CGraph) (a b : Nat) : Prop :=
  (a, b) ∈ G.edges ∨ (b, a) ∈ G.edges

instance (G : CGraph) (a b : Nat) : Decidable (edgeMem G a b) := by
  unfold edgeMem; infer_instance

/-! ## Mutual-isolation pruner (graph.py lines 7-37, duplicated in utils.py) -/

/-- Embedding of list(G.neighbors(node)): the nodes adjacent to n, in node-list
order (networkx reports adjacency in insertion order; the pruner only inspects
the length and the sole element of this list, so only the underlying set
matters). -/
def neighborsOf (G : CGraph) (n : Nat) : List Nat :=
  G.nodes.filter fun m => decide (edgeMem G n m)

/-- The inner check of the pruner loop (graph.py lines 29-32): when node has the
single neighbor nb, schedule both exactly when nb's sole neighbor is node. -/
def partnerCheck (G : CGraph) (acc : List Nat) (node nb : Nat) : List Nat :=
  match neighborsOf G nb with
  | [nn] => if nn = node then acc ++ [node, nb] else acc
  | _ => acc

/-- One step of the pruner loop body (graph.py lines 23-32): skip a node already
scheduled for removal; schedule an isolated node; schedule a node and its sole
neighbor when they are each other's only neighbors. -/
def stepRemove (G : CGraph) (acc : List Nat) (node : Nat) : List Nat :=
  if node ∈ acc then acc
  else
    match neighborsOf G node with
    | [] => acc ++ [node]
    | [nb] => partnerCheck G acc node nb
    | _ => acc

/-- The to_remove list accumulated by one pass over the node set
(graph.py lines 21-32). -/
def toRemoveL (G : CGraph) : List Nat :=
  G.nodes.foldl (stepRemove G) []

/-- Embedding of G.remove_nodes_from(rm): drop the listed nodes, every edge
touching them, and their weight entries; the relative order of the remaining
nodes and edges is preserved (networkx semantics). -/
def removeNodes (G : CGraph) (rm : List Nat) : CGraph :=
  { nodes := G.nodes.filter fun n => n ∉ rm
    edges := G.edges.filter fun e => e.1 ∉ rm ∧ e.2 ∉ rm
    w := fun a b => if a ∈ rm ∨ b ∈ rm then none else G.w a b }

/-- Embedding of list(nx.isolates(G)): the nodes with no incident edge. -/
def isolatesOf (G : CGraph) : List Nat :=
  G.nodes.filter fun n => neighborsOf G n = []

/-- Embedding of remove_G_pair_isolates (graph.py lines 20-37): copy the graph,
collect isolated nodes and mutually-isolated dyads in one pass, remove them,
then remove any nodes left isolated.  The heap-level copy discipline is treated
separately (see the store model below); this is the value-level result. -/
def remove_G_pair_isolates (G : CGraph) : CGraph :=
  removeNodes (removeNodes G (toRemoveL G))
    (isolatesOf (removeNodes G (toRemoveL G)))

/-! ## Graph intersection and community translation (graph.py lines 86-131) -/

/-- Embedding of nx.intersection_all on a nonempty list of graphs: the node set
is the intersection of the node sets and the edge set the intersection of the
reported edge tuples.  All graphs handed to it by make_intersection_graph store
their edges in the same canonical orientation (nodes are inserted in sorted
order by make_corr_graph before any edge), so tuple intersection is set
intersection of undirected edges.  networkx adds the surviving edges without
attributes, so the intersection carries no weights. -/
def intersection_all (g : CGraph) (gs : List CGraph) : CGraph :=
  { nodes := gs.foldl (fun ns h => ns.filter fun n => n ∈ h.nodes) g.nodes
    edges := gs.foldl (fun es h => es.filter fun e => e ∈ h.edges) g.edges
    w := fun _ _ => none }

/-- The translation loop of graph.py lines 124-129 with its running counter:
for each community, record biomolecule → count for every member, then increment
count. -/
def transCommAux (count : Nat) : List (List Nat) → List (Nat × Nat)
  | [] => []
  | comm :: rest => (comm.map fun b => (b, count)) ++ transCommAux (count + 1) rest

/-- Embedding of the translation loop of graph.py lines 122-129: enumerate the
communities with ids 0, 1, 2, ... and record biomolecule → id for every member
(trans_comm). -/
def transComm (communities : List (List Nat)) : List (Nat × Nat) :=
  transCommAux 0 communities

/-- Python dict lookup on the association list built by the translation loop
(later writes would win; with disjoint communities each key is written once). -/
def dictLookup (m : List (Nat × Nat)) (k : Nat) : Option Nat :=
  (m.reverse.find? fun p => p.1 = k).map fun p => p.2

/-- Embedding of make_intersection_graph (graph.py lines 86-131): build one graph
per layer, intersect them, prune, run community detection, and return the pruned
intersection with the biomolecule → community-id mapping.  The Louvain call is
external networkx code and is randomized; it is passed as an oracle parameter.
nx.intersection_all raises on an empty graph list, modelled by none. -/
def make_intersection_graph (corrs pvals : List DF) (pcut ccut : ℚ)
    (louvain : CGraph → List (List Nat)) : Option (CGraph × List (Nat × Nat)) :=
  match List.zipWith (fun c p => make_corr_graph c p pcut ccut) corrs pvals with
  | [] => none
  | g :: gs =>
      let Ginter := remove_G_pair_isolates (intersection_all g gs)
      some (Ginter, transComm (louvain Ginter))

/-! ## Parallel dispatcher (run_parallel.py lines 70-138)

The numeric payload of each pair task runs in worker processes through
bootstrap_spearman_correlation (embedded separately below); for the dispatcher the
per-pair numbers are an oracle, and pool.imap_unordered delivers every generated
pair exactly once in an arbitrary completion order, modelled as an arrival list
that is a permutation of the generated pairs. -/

/-- The input table as the dispatcher sees it: the row index (entity identifiers,
run_parallel.py line 108) and the names of the column levels
(run_parallel.py line 100). -/
structure InputDF where
  index : List Nat
  colNames : List String

/-- Embedding of combinations(df.index.unique(), 2) (run_parallel.py line 108):
unordered pair tasks over the distinct row labels in first-occurrence order. -/
def dispatchPairs (df : InputDF) : List (Nat × Nat) :=
  combinations2 df.index.dedup

/-- The message of the IndexError raised at run_parallel.py line 101, which
reports the valid level names of the input columns. -/
def errMsg (names : List String) : String :=
  "Could not find one of the specified columns in the dataframe. Valid options are: "
    ++ toString names

/-- One of the two returned pandas DataFrames, as built from a dict of dicts:
columns are the outer keys (first pair members) in insertion order, rows the
union of inner keys (second pair members), values looked up per (column, row)
position. -/
structure ResFrame where
  cols : List Nat
  rows : List Nat
  val : Nat → Nat → Option ℚ

/-- Embedding of the result-folding loop (run_parallel.py lines 129-136) followed
by pd.DataFrame: fold arriving (s1, s2, value) triples into a nested dict keyed
[s1][s2] and read off the frame labels and values. -/
def foldResults (arrivals : List (Nat × Nat × ℚ)) : ResFrame :=
  { cols := (arrivals.map fun r => r.1).dedup
    rows := (arrivals.map fun r => r.2.1).dedup
    val := fun a b => (arrivals.reverse.find? fun r => r.1 = a ∧ r.2.1 = b).map fun r => r.2.2 }

/-- Embedding of bootstrap_spearman_corr_parallel (run_parallel.py lines 70-138).
The level-name precondition is checked first (lines 100-101); only the ok branch
generates pairs, dispatches them, and folds results.  arrival is the completion
order of the generated pairs (pool.imap_unordered), compute the per-pair
(correlation, combined p-value) oracle. -/
def bootstrap_spearman_corr_parallel (df : InputDF) (replicate_column_name : String)
    (arrival : List (Nat × Nat)) (compute : Nat → Nat → ℚ × ℚ) :
    Except String (ResFrame × ResFrame) :=
  if replicate_column_name ∈ df.colNames then
    .ok
      (foldResults (arrival.map fun p => (p.1, p.2, (compute p.1 p.2).1)),
       foldResults (arrival.map fun p => (p.1, p.2, (compute p.1 p.2).2)))
  else
    .error (errMsg df.colNames)

/-! ## Bootstrap correlation estimator (bootstrap_corr.py)

NaN is modelled by none throughout.  scipy numerics that the source calls are
external library code; their repository-relevant behavior (which inputs give NaN,
which give a number) is embedded concretely, while the irrational numeric kernels
(the exact p-value of a rank correlation, the chi-square tail of the Pearson
combination) are oracle parameters, and a random normal draw is modelled by an
arbitrary rational offset from the group mean, supplied by a randomness oracle. -/

/-- A measurement series: (replicate label, value) observations; the label is not
necessarily unique (replicates share it). -/
def Series : Type := List (Nat × ℚ)

/-- A fitted scipy.stats.norm distribution for one replicate group.  varQ is the
sample variance (ddof = 1); none models the NaN standard deviation that pandas
std produces on a single-observation group.  The standard deviation itself is
the square root of varQ, which is irrational in general; every use in the source
only depends on whether the scale is NaN or not strictly positive (scipy norm
rejects scale NaN or scale 0 and returns NaN draws), so the variance carries all
the information needed. -/
structure NormDist where
  loc : ℚ
  varQ : Option ℚ

/-- The values of the group with the given replicate label. -/
def groupVals (s : Series) (l : Nat) : List ℚ :=
  s.filterMap fun p => if p.1 = l then some p.2 else none

/-- Arithmetic mean of a list of rationals (pandas groupby mean). -/
def meanOf (vs : List ℚ) : ℚ := vs.sum / vs.length

/-- Sample variance with ddof = 1 (pandas groupby std squared); none on a group
with fewer than two observations, where pandas std is NaN. -/
def sampleVar (vs : List ℚ) : Option ℚ :=
  if vs.length ≤ 1 then none
  else some (((vs.map fun x => (x - meanOf vs) ^ 2).sum) / ((vs.length : ℚ) - 1))

/-- Embedding of _calc_norm_dict (bootstrap_corr.py lines 7-30): group the series
by replicate label (pandas groupby iterates the distinct labels in sorted order)
and fit one normal distribution per distinct label from that label's mean and
standard deviation. -/
def calc_norm_dict (s : Series) : List (Nat × NormDist) :=
  (insSort (fun a b => decide (a ≤ b)) ((s.map Prod.fst).dedup)).map fun l =>
    (l, { loc := meanOf (groupVals s l), varQ := sampleVar (groupVals s l) })

/-- Embedding of norm(loc, scale).rvs(size=1)[0]: scipy rejects a scale that is
NaN or not strictly positive and yields NaN; otherwise the draw is loc plus a
scaled standard-normal variate, whose reachable values are modelled by an
arbitrary rational offset z from the randomness oracle. -/
def drawFrom (d : NormDist) (z : ℚ) : Option ℚ :=
  match d.varQ with
  | some v => if 0 < v then some (d.loc + z) else none
  | none => none

/-- The per-iteration draw vector: one draw per fitted distribution, in the order
of the distribution dict (bootstrap_corr.py lines 64-65). -/
def drawVec (d : List (Nat × NormDist)) (z : Nat → ℚ) : List (Option ℚ) :=
  d.map fun p => drawFrom p.2 (z p.1)

/-- Collects a list of possibly-NaN values; none as soon as any entry is NaN. -/
def allSome : List (Option ℚ) → Option (List ℚ)
  | [] => some []
  | none :: _ => none
  | some x :: xs => (allSome xs).map fun vs => x :: vs

/-- Midrank of x within xs (average rank, 1-based), as used by a rank
correlation. -/
def midRank (xs : List ℚ) (x : ℚ) : ℚ :=
  ((xs.countP fun y => decide (y < x) : Nat) : ℚ)
    + (((xs.countP fun y => decide (y = x) : Nat) : ℚ) + 1) / 2

/-- Model of the scipy.stats.spearmanr coefficient (external library): NaN (none)
on vectors of length below two, on mismatched lengths, and on a constant vector
(scipy ConstantInputWarning yields NaN); otherwise the Spearman coefficient
computed from the midrank differences.  The numeric value on clean inputs is
never consulted by any claim; only the NaN geography is. -/
def spearmanRho (a b : List ℚ) : Option ℚ :=
  match a, b with
  | x :: _ :: _, y :: _ :: _ =>
      if a.length = b.length then
        if (a.all fun u => decide (u = x)) ∨ (b.all fun v => decide (v = y)) then none
        else
          some (1 - 6 * ((a.zip b).map fun p =>
            (midRank a p.1 - midRank b p.2) ^ 2).sum
              / ((a.length : ℚ) * ((a.length : ℚ) ^ 2 - 1)))
      else none
  | _, _ => none

/-- numpy.mean over possibly-NaN values: NaN on an empty list and whenever any
entry is NaN. -/
def meanQ (xs : List (Option ℚ)) : Option ℚ :=
  match allSome xs with
  | some vs => if vs.length = 0 then none else some (meanOf vs)
  | none => none

/-- numpy linear-interpolation percentile on a clean nonempty list. -/
def percentileQ (vs : List ℚ) (q : ℚ) : Option ℚ :=
  match vs with
  | [] => none
  | _ :: _ =>
      let s := insSort (fun a b => decide (a ≤ b)) vs
      let h : ℚ := ((s.length : ℚ) - 1) * q / 100
      match s.get? (Int.toNat ⌊h⌋), s.get? (Int.toNat ⌈h⌉) with
      | some a, some b => some (a + (h - (⌊h⌋ : ℚ)) * (b - a))
      | _, _ => none

/-- numpy.percentile over possibly-NaN values: NaN whenever any entry is NaN
(numpy raises on an empty input, which the source never reaches for a positive
iteration count; modelled by none). -/
def percentile (xs : List (Option ℚ)) (q : ℚ) : Option ℚ :=
  match allSome xs with
  | some vs => percentileQ vs q
  | none => none

/-- scipy.stats.combine_pvalues with the pearson method (external library): NaN
whenever any per-iteration p-value is NaN, otherwise the combined p-value from
the chi-square tail, an irrational numeric kernel supplied as an oracle. -/
def combineP (xs : List (Option ℚ)) (combK : List ℚ → ℚ) : Option ℚ :=
  match allSome xs with
  | some vs => if vs.length = 0 then none else some (combK vs)
  | none => none

/-- Result record of bootstrap_spearman_correlation: mean correlation, the
2.5/97.5 percentile interval, and the combined p-value; none is NaN. -/
structure BootstrapOut where
  meanCorr : Option ℚ
  ciLow : Option ℚ
  ciHigh : Option ℚ
  combinedP : Option ℚ

/-- One bootstrap iteration (bootstrap_corr.py lines 63-68): draw one vector per
distribution dict, and compute the rank correlation and its p-value; as soon as
any draw is NaN so are both (scipy spearmanr with nan_policy propagate). -/
def bootstrapIter (d1 d2 : List (Nat × NormDist)) (z1 z2 : Nat → Nat → ℚ)
    (pvK : List ℚ → List ℚ → ℚ) (t : Nat) : Option ℚ × Option ℚ :=
  match allSome (drawVec d1 (z1 t)), allSome (drawVec d2 (z2 t)) with
  | some av, some bv =>
      match spearmanRho av bv with
      | some r => (some r, some (pvK av bv))
      | none => (none, none)
  | _, _ => ((none : Option ℚ), (none : Option ℚ))

/-- Embedding of bootstrap_spearman_correlation (bootstrap_corr.py lines 33-77):
fit the two distribution dicts, run n_iterations bootstrap draws, compute the
rank correlation and its p-value per iteration (both NaN as soon as a draw is
NaN), and aggregate into mean, percentile interval and Pearson-combined p-value.
z1 and z2 are the randomness oracles (iteration, label) → variate, pvK the
external p-value kernel, combK the external combination kernel. -/
def bootstrap_spearman_correlation (s1 s2 : Series) (n_iterations : Nat)
    (z1 z2 : Nat → Nat → ℚ) (pvK : List ℚ → List ℚ → ℚ) (combK : List ℚ → ℚ) :
    BootstrapOut :=
  { meanCorr := meanQ (((List.range n_iterations).map
      (bootstrapIter (calc_norm_dict s1) (calc_norm_dict s2) z1 z2 pvK)).map Prod.fst)
    ciLow := percentile (((List.range n_iterations).map
      (bootstrapIter (calc_norm_dict s1) (calc_norm_dict s2) z1 z2 pvK)).map Prod.fst)
      (mkRat 5 2)
    ciHigh := percentile (((List.range n_iterations).map
      (bootstrapIter (calc_norm_dict s1) (calc_norm_dict s2) z1 z2 pvK)).map Prod.fst)
      (mkRat 195 2)
    combinedP := combineP (((List.range n_iterations).map
      (bootstrapIter (calc_norm_dict s1) (calc_norm_dict s2) z1 z2 pvK)).map Prod.snd)
      combK }

/-! ## Store model for the pruner's copy discipline (graph.py lines 20-37)

The source mutates a networkx graph object in place (remove_nodes_from), after
first taking a copy of its input.  To state the frame property the heap is made
explicit: a store of graph objects addressed by natural numbers, on which copy
allocates a fresh address and each remove_nodes_from overwrites one address. -/

structure Store where
  heap : Nat → CGraph
  next : Nat

/-- G_in.copy(): allocate a fresh address holding the same graph value. -/
def copyG (s : Store) (i : Nat) : Store × Nat :=
  ({ heap := fun j => if j = s.next then s.heap i else s.heap j, next := s.next + 1 },
   s.next)

/-- In-place update of the graph object at one address (remove_nodes_from). -/
def setG (s : Store) (i : Nat) (g : CGraph) : Store :=
  { s with heap := fun j => if j = i then g else s.heap j }

/-- Embedding of remove_G_pair_isolates at the heap level: copy the input object,
then apply both remove_nodes_from calls to the copy only, and return the copy's
address. -/
def remove_G_pair_isolates_prog (s : Store) (gin : Nat) : Store × Nat :=
  let r := copyG s gin
  let g := r.2
  let G0 := r.1.heap g
  let s2 := setG r.1 g (removeNodes G0 (toRemoveL G0))
  let G1 := s2.heap g
  let s3 := setG s2 g (removeNodes G1 (isolatesOf G1))
  (s3, g)

/-! ## Lemmas on pair generation -/

theorem comb2_length {α : Type} (l : List α) :
    (combinations2 l).length = l.length.choose 2 := by
  induction l with
  | nil => rfl
  | cons x xs ih =>
      simp only [combinations2, List.length_append, List.length_map, ih, List.length_cons]
      rw [Nat.choose_succ_succ, Nat.choose_one_right]

theorem comb2_mem_components {α : Type} {p : α × α} :
    ∀ {l : List α}, p ∈ combinations2 l → p.1 ∈ l ∧ p.2 ∈ l := by
  intro l
  induction l with
  | nil => intro h; cases h
  | cons x xs ih =>
      intro h
      rcases List.mem_append.mp h with h1 | h2
      · rcases List.mem_map.mp h1 with ⟨y, hy, hyp⟩
        subst hyp
        exact ⟨List.mem_cons_self x xs, List.mem_cons_of_mem x hy⟩
      · exact ⟨List.mem_cons_of_mem x (ih h2).1, List.mem_cons_of_mem x (ih h2).2⟩

theorem comb2_nodup {α : Type} [DecidableEq α] {l : List α} (h : l.Nodup) :
    (combinations2 l).Nodup := by
  induction l with
  | nil => exact List.nodup_nil
  | cons x xs ih =>
      rw [combinations2]
      apply List.Nodup.append
      · exact (List.nodup_cons.mp h).2.map (fun a b hab => congrArg Prod.snd hab)
      · exact ih (List.nodup_cons.mp h).2
      · intro p hp hp2
        rcases List.mem_map.mp hp with ⟨y, _, hyp⟩
        have h1 : p.1 = x := by rw [← hyp]
        have h2 : p.1 ∈ xs := (comb2_mem_components hp2).1
        exact (List.nodup_cons.mp h).1 (h1 ▸ h2)

theorem comb2_asymm {α : Type} {l : List α} (h : l.Nodup) {a b : α}
    (hab : (a, b) ∈ combinations2 l) : a ≠ b ∧ (b, a) ∉ combinations2 l := by
  induction l with
  | nil => cases hab
  | cons x xs ih =>
      have hx : x ∉ xs := (List.nodup_cons.mp h).1
      have hxs : xs.Nodup := (List.nodup_cons.mp h).2
      rcases List.mem_append.mp hab with h1 | h2
      · rcases List.mem_map.mp h1 with ⟨y, hy, hyp⟩
        have hax : a = x := congrArg Prod.fst hyp.symm
        have hby : b = y := congrArg Prod.snd hyp.symm
        subst hax; subst hby
        constructor
        · intro hEq; exact hx (hEq ▸ hy)
        · intro hba
          rcases List.mem_append.mp hba with g1 | g2
          · rcases List.mem_map.mp g1 with ⟨z, _, hz⟩
            have : b = a := congrArg Prod.fst hz.symm
            exact hx (this ▸ hy)
          · exact hx (comb2_mem_components g2).2
      · rcases ih hxs h2 with ⟨hne, hnb⟩
        refine ⟨hne, fun hba => ?_⟩
        rcases List.mem_append.mp hba with g1 | g2
        · rcases List.mem_map.mp g1 with ⟨z, _, hz⟩
          have : b = x := congrArg Prod.fst hz.symm
          exact hx (this ▸ (comb2_mem_components h2).2)
        · exact hnb g2

theorem comb2_countP {α : Type} [DecidableEq α] {l : List α} (h : l.Nodup) {x : α}
    (hx : x ∈ l) :
    (combinations2 l).countP (fun p => decide (p.1 = x ∨ p.2 = x)) = l.length - 1 := by
  induction l with
  | nil => cases hx
  | cons y ys ih =>
      have hy : y ∉ ys := (List.nodup_cons.mp h).1
      have hys : ys.Nodup := (List.nodup_cons.mp h).2
      rw [combinations2, List.countP_append, List.countP_map]
      rcases List.mem_cons.mp hx with hxy | hxmem
      · subst hxy
        have hmap : (ys.countP ((fun p => decide (p.1 = x ∨ p.2 = x)) ∘ fun b => (x, b)))
            = ys.length := by
          rw [List.countP_eq_length]
          intro b _
          simp
        have hrest : ((combinations2 ys).countP fun p => decide (p.1 = x ∨ p.2 = x)) = 0 := by
          rw [List.countP_eq_zero]
          intro p hp
          have := comb2_mem_components hp
          simp only [decide_eq_true_eq]
          rintro (h1 | h2)
          · exact hy (h1 ▸ this.1)
          · exact hy (h2 ▸ this.2)
        rw [hmap, hrest]
        simp
      · have hmap : (ys.countP ((fun p => decide (p.1 = x ∨ p.2 = x)) ∘ fun b => (y, b)))
            = 1 := by
          have hne : y ≠ x := fun hEq => hy (hEq ▸ hxmem)
          have : (ys.countP ((fun p => decide (p.1 = x ∨ p.2 = x)) ∘ fun b => (y, b)))
              = ys.countP (fun b => decide (b = x)) := by
            apply List.countP_congr
            intro b _
            simp [hne]
          rw [this]
          have := List.count_eq_one_of_mem hys hxmem
          simpa [List.count] using this
        rw [hmap, ih hys hxmem]
        have hpos : 1 ≤ ys.length := List.length_pos.mpr (List.ne_nil_of_mem hxmem)
        simp only [List.length_cons]
        omega

theorem combinations_count_eq_choose (n : Nat) :
    combinations_count n 2 = n.choose 2 := by
  unfold combinations_count
  by_cases h : 2 > n
  · rw [if_pos h, Nat.choose_eq_zero_of_lt h]
  · rw [if_neg h, ← Nat.choose_eq_factorial_div_factorial (Nat.le_of_not_lt h)]

/-- C3: pair-task generation inside bootstrap_spearman_corr_parallel emits exactly
C(n, 2) = n!/(2!(n-2)!) distinct unordered pairs over the n distinct entity
identifiers of the row index, without repetition in either orientation, each
entity appearing in exactly n - 1 pairs, zero pairs when n < 2, and
combinations_count(n, 2) equals this same count. -/
theorem pair_generation_complete (df : InputDF) :
    (dispatchPairs df).length = combinations_count df.index.dedup.length 2 ∧
    (2 ≤ df.index.dedup.length →
      combinations_count df.index.dedup.length 2
        = df.index.dedup.length.factorial
            / (Nat.factorial 2 * (df.index.dedup.length - 2).factorial)) ∧
    (dispatchPairs df).Nodup ∧
    (∀ a b, (a, b) ∈ dispatchPairs df → a ≠ b ∧ (b, a) ∉ dispatchPairs df) ∧
    (∀ x ∈ df.index.dedup,
      (dispatchPairs df).countP (fun p => decide (p.1 = x ∨ p.2 = x))
        = df.index.dedup.length - 1) ∧
    (df.index.dedup.length < 2 → dispatchPairs df = []) := by
  have hnd : df.index.dedup.Nodup := List.nodup_dedup df.index
  refine ⟨?_, ?_, ?_, ?_, ?_, ?_⟩
  · rw [dispatchPairs, comb2_length, combinations_count_eq_choose]
  · intro h
    rw [combinations_count]
    rw [if_neg (Nat.not_lt.mpr h)]
  · exact comb2_nodup hnd
  · intro a b hab
    exact comb2_asymm hnd hab
  · intro x hxmem
    exact comb2_countP hnd hxmem
  · intro h
    rw [dispatchPairs]
    rcases hl : df.index.dedup with _ | ⟨a, _ | ⟨b, rest⟩⟩
    · rfl
    · rfl
    · rw [hl, List.length_cons, List.length_cons] at h; omega

theorem pair_generation_complete_witness :
    (dispatchPairs ⟨[5, 7, 7, 9], ["t"]⟩).length = combinations_count 3 2 ∧
    combinations_count 3 2 = Nat.factorial 3 / (Nat.factorial 2 * Nat.factorial 1) ∧
    (dispatchPairs ⟨[5, 7, 7, 9], ["t"]⟩).countP
      (fun p => decide (p.1 = 7 ∨ p.2 = 7)) = 2 := by
  have h := pair_generation_complete ⟨[5, 7, 7, 9], ["t"]⟩
  have hd : (⟨[5, 7, 7, 9], ["t"]⟩ : InputDF).index.dedup = [5, 7, 9] := by decide
  refine ⟨?_, ?_, ?_⟩
  · have := h.1; rw [hd] at this; simpa using this
  · have := h.2.1; rw [hd] at this; simpa using this (by decide)
  · have := h.2.2.2.2.1 7 (by rw [hd]; decide); rw [hd] at this; simpa using this

/-! ## C8: configuration-error path of the dispatcher -/

/-- C8: when the requested replicate level name is not among the column level
names, bootstrap_spearman_corr_parallel raises the IndexError whose message
reports the valid level names; the error branch is taken before the ok branch
that alone generates or folds pair tasks, for every arrival order and every
per-pair oracle. -/
theorem missing_level_reports_error (df : InputDF) (name : String)
    (arrival : List (Nat × Nat)) (compute : Nat → Nat → ℚ × ℚ)
    (h : name ∉ df.colNames) :
    bootstrap_spearman_corr_parallel df name arrival compute
      = .error (errMsg df.colNames) := by
  unfold bootstrap_spearman_corr_parallel
  rw [if_neg h]

theorem missing_level_reports_error_witness :
    bootstrap_spearman_corr_parallel ⟨[1, 2], ["time"]⟩ "replicate" [] (fun _ _ => (0, 0))
      = .error (errMsg ["time"]) :=
  missing_level_reports_error ⟨[1, 2], ["time"]⟩ "replicate" [] (fun _ _ => (0, 0))
    (by decide)

/-! ## C9: the pruner never mutates its input object -/

/-- C9: at the heap level, remove_G_pair_isolates leaves the input graph object
untouched — after the call the input address still holds exactly the nodes and
edges it held before — and the returned (fresh) address holds the pruned result;
all node removals are applied to the copy only. -/
theorem pruner_does_not_mutate_input (s : Store) (gin : Nat) (h : gin < s.next) :
    ((remove_G_pair_isolates_prog s gin).1.heap gin = s.heap gin) ∧
    ((remove_G_pair_isolates_prog s gin).2 ≠ gin) ∧
    ((remove_G_pair_isolates_prog s gin).1.heap (remove_G_pair_isolates_prog s gin).2
      = remove_G_pair_isolates (s.heap gin)) := by
  have hne : gin ≠ s.next := Nat.ne_of_lt h
  refine ⟨?_, ?_, ?_⟩
  · simp [remove_G_pair_isolates_prog, copyG, setG, hne]
  · simpa [remove_G_pair_isolates_prog, copyG] using fun hEq => hne hEq.symm
  · simp [remove_G_pair_isolates_prog, copyG, setG, remove_G_pair_isolates]

theorem pruner_does_not_mutate_input_witness :
    ((remove_G_pair_isolates_prog ⟨fun _ => ⟨[0, 1, 2], [(0, 1)], fun _ _ => none⟩, 1⟩ 0).1.heap 0
      = (⟨fun _ => ⟨[0, 1, 2], [(0, 1)], fun _ _ => none⟩, 1⟩ : Store).heap 0) ∧
    ((remove_G_pair_isolates_prog ⟨fun _ => ⟨[0, 1, 2], [(0, 1)], fun _ _ => none⟩, 1⟩ 0).2 ≠ 0) ∧
    ((remove_G_pair_isolates_prog ⟨fun _ => ⟨[0, 1, 2], [(0, 1)], fun _ _ => none⟩, 1⟩ 0).1.heap
        (remove_G_pair_isolates_prog ⟨fun _ => ⟨[0, 1, 2], [(0, 1)], fun _ _ => none⟩, 1⟩ 0).2
      = remove_G_pair_isolates ⟨[0, 1, 2], [(0, 1)], fun _ _ => none⟩) :=
  pruner_does_not_mutate_input ⟨fun _ => ⟨[0, 1, 2], [(0, 1)], fun _ _ => none⟩, 1⟩ 0
    (by decide)

/-! ## Lemmas on the correlation-graph builder -/

/-- A matrix position that passes the mask and the magnitude cutoff — the
spec-side reading of one retained (biomolecule1, biomolecule2, value) triple. -/
def passingEntry (corr pvals : DF) (pcut ccut : ℚ) (r c : Nat) (v : ℚ) : Prop :=
  r ∈ corr.rows ∧ c ∈ corr.cols ∧ maskedVal corr pvals pcut r c = some v ∧ ccut ≤ |v|

instance (corr pvals : DF) (pcut ccut : ℚ) (r c : Nat) (v : ℚ) :
    Decidable (passingEntry corr pvals pcut ccut r c v) := by
  unfold passingEntry; infer_instance

theorem keepEntry_eq_some {corr pvals : DF} {pcut ccut : ℚ} {r c r2 c2 : Nat} {v : ℚ} :
    keepEntry corr pvals pcut ccut r c = some (r2, c2, v) ↔
      r2 = r ∧ c2 = c ∧ maskedVal corr pvals pcut r c = some v ∧ ccut ≤ |v| := by
  unfold keepEntry
  constructor
  · intro h
    split at h
    · rename_i v0 hm
      split at h
      · rename_i hcc
        injection h with h2
        obtain ⟨e1, e2, e3⟩ : r = r2 ∧ c = c2 ∧ v0 = v :=
          ⟨congrArg (fun t => t.1) h2, congrArg (fun t => t.2.1) h2,
           congrArg (fun t => t.2.2) h2⟩
        subst e1; subst e2; subst e3
        exact ⟨rfl, rfl, hm, hcc⟩
      · cases h
    · cases h
  · rintro ⟨h1, h2, hm, hcc⟩
    subst h1; subst h2
    rw [hm]
    show (if ccut ≤ |v| then some (r2, c2, v) else none) = some (r2, c2, v)
    rw [if_pos hcc]

theorem mem_signiEntries {corr pvals : DF} {pcut ccut : ℚ} {r c : Nat} {v : ℚ} :
    (r, c, v) ∈ signiEntries corr pvals pcut ccut ↔
      passingEntry corr pvals pcut ccut r c v := by
  unfold signiEntries passingEntry
  rw [List.mem_flatMap]
  constructor
  · rintro ⟨c0, hc0, hmem⟩
    rcases List.mem_filterMap.mp hmem with ⟨r0, hr0, hf⟩
    obtain ⟨h1, h2, hm, hcc⟩ := keepEntry_eq_some.mp hf
    subst h1; subst h2
    exact ⟨hr0, hc0, hm, hcc⟩
  · rintro ⟨hr, hc, hm, hcc⟩
    exact ⟨c, hc, List.mem_filterMap.mpr ⟨r, hr, keepEntry_eq_some.mpr ⟨rfl, rfl, hm, hcc⟩⟩⟩

theorem mem_sortedEntries {corr pvals : DF} {pcut ccut : ℚ} {e : Nat × Nat × ℚ} :
    e ∈ sortedEntries corr pvals pcut ccut ↔ e ∈ signiEntries corr pvals pcut ccut :=
  mem_insSort _ _ e

/-- Whether a retained triple addresses the unordered pair {a, b}. -/
def pairMatch (e : Nat × Nat × ℚ) (a b : Nat) : Prop :=
  (e.1 = a ∧ e.2.1 = b) ∨ (e.1 = b ∧ e.2.1 = a)

instance (e : Nat × Nat × ℚ) (a b : Nat) : Decidable (pairMatch e a b) := by
  unfold pairMatch; infer_instance

theorem foldEdge_isSome (l : List (Nat × Nat × ℚ)) (init : Nat → Nat → Option ℚ)
    (a b : Nat) :
    ((l.foldl edgeStep init) a b).isSome ↔
      (∃ e ∈ l, 0 ≤ e.2.2 ∧ pairMatch e a b) ∨ (init a b).isSome := by
  induction l generalizing init with
  | nil => simp
  | cons e rest ih =>
      rw [List.foldl_cons, ih]
      constructor
      · rintro (⟨e2, he2, h0, hm⟩ | hinit)
        · exact Or.inl ⟨e2, List.mem_cons_of_mem e he2, h0, hm⟩
        · unfold edgeStep at hinit
          by_cases h0 : (0 : ℚ) ≤ e.2.2
          · rw [if_pos h0] at hinit
            unfold addEdgeW at hinit
            by_cases hc : (a = e.1 ∧ b = e.2.1) ∨ (a = e.2.1 ∧ b = e.1)
            · refine Or.inl ⟨e, List.mem_cons_self e rest, h0, ?_⟩
              unfold pairMatch
              tauto
            · rw [if_neg hc] at hinit
              exact Or.inr hinit
          · rw [if_neg h0] at hinit
            exact Or.inr hinit
      · rintro (⟨e2, he2, h0, hm⟩ | hinit)
        · rcases List.mem_cons.mp he2 with hEq | hmem
          · subst hEq
            right
            unfold edgeStep
            rw [if_pos h0]
            unfold addEdgeW
            rw [if_pos (by unfold pairMatch at hm; tauto)]
            rfl
          · exact Or.inl ⟨e2, hmem, h0, hm⟩
        · right
          unfold edgeStep
          split
          · unfold addEdgeW
            split
            · rfl
            · exact hinit
          · exact hinit

theorem foldEdge_some {l : List (Nat × Nat × ℚ)} {init : Nat → Nat → Option ℚ}
    {a b : Nat} {x : ℚ} (h : (l.foldl edgeStep init) a b = some x) :
    (∃ e ∈ l, 0 ≤ e.2.2 ∧ pairMatch e a b ∧ |e.2.2| = x) ∨ init a b = some x := by
  induction l generalizing init with
  | nil => exact Or.inr h
  | cons e rest ih =>
      rw [List.foldl_cons] at h
      rcases ih h with ⟨e2, he2, h0, hm, hx⟩ | hinit
      · exact Or.inl ⟨e2, List.mem_cons_of_mem e he2, h0, hm, hx⟩
      · unfold edgeStep at hinit
        by_cases h0 : (0 : ℚ) ≤ e.2.2
        · rw [if_pos h0] at hinit
          unfold addEdgeW at hinit
          by_cases hc : (a = e.1 ∧ b = e.2.1) ∨ (a = e.2.1 ∧ b = e.1)
          · rw [if_pos hc] at hinit
            injection hinit with hx
            refine Or.inl ⟨e, List.mem_cons_self e rest, h0, ?_, hx⟩
            unfold pairMatch
            tauto
          · rw [if_neg hc] at hinit
            exact Or.inr hinit
        · rw [if_neg h0] at hinit
          exact Or.inr hinit

theorem foldEdge_symm (l : List (Nat × Nat × ℚ)) (init : Nat → Nat → Option ℚ)
    (hsym : ∀ a b, init a b = init b a) (a b : Nat) :
    (l.foldl edgeStep init) a b = (l.foldl edgeStep init) b a := by
  induction l generalizing init with
  | nil => exact hsym a b
  | cons e rest ih =>
      rw [List.foldl_cons]
      apply ih
      intro u v
      unfold edgeStep
      split
      · unfold addEdgeW
        by_cases hc : (u = e.1 ∧ v = e.2.1) ∨ (u = e.2.1 ∧ v = e.1)
        · rw [if_pos hc, if_pos (by tauto)]
        · rw [if_neg hc, if_neg (by tauto), hsym]
      · exact hsym u v

theorem corrW_symm (corr pvals : DF) (pcut ccut : ℚ) (a b : Nat) :
    corrW corr pvals pcut ccut a b = corrW corr pvals pcut ccut b a :=
  foldEdge_symm (sortedEntries corr pvals pcut ccut) (fun _ _ => none)
    (fun _ _ => rfl) a b

theorem mem_edgesOf {ns : List Nat} {w : Nat → Nat → Option ℚ} {u v : Nat} :
    (u, v) ∈ edgesOf ns w ↔ u ∈ ns ∧ v ∈ ns ∧ u ≤ v ∧ (w u v).isSome := by
  unfold edgesOf
  rw [List.mem_flatMap]
  constructor
  · rintro ⟨u0, hu0, hmem⟩
    rcases List.mem_filterMap.mp hmem with ⟨v0, hv0, hf⟩
    split at hf
    · rename_i hcond
      injection hf with h2
      obtain ⟨e1, e2⟩ : u0 = u ∧ v0 = v := ⟨congrArg Prod.fst h2, congrArg Prod.snd h2⟩
      subst e1; subst e2
      exact ⟨hu0, hv0, hcond.1, hcond.2⟩
    · cases hf
  · rintro ⟨hu, hv, hle, hw⟩
    exact ⟨u, hu, List.mem_filterMap.mpr ⟨v, hv, by rw [if_pos ⟨hle, hw⟩]⟩⟩

theorem mem_nodes0 {corr pvals : DF} {pcut ccut : ℚ} {n : Nat} :
    n ∈ nodes0 corr pvals pcut ccut ↔
      ∃ e ∈ signiEntries corr pvals pcut ccut, e.1 = n ∨ e.2.1 = n := by
  unfold nodes0
  rw [mem_insSort, List.mem_dedup, List.mem_append]
  constructor
  · rintro (h | h)
    · rcases List.mem_map.mp h with ⟨e, he, hEq⟩
      exact ⟨e, he, Or.inl hEq⟩
    · rcases List.mem_map.mp h with ⟨e, he, hEq⟩
      exact ⟨e, he, Or.inr hEq⟩
  · rintro ⟨e, he, hEq | hEq⟩
    · exact Or.inl (List.mem_map.mpr ⟨e, he, hEq⟩)
    · exact Or.inr (List.mem_map.mpr ⟨e, he, hEq⟩)

theorem make_corr_graph_w (corr pvals : DF) (pcut ccut : ℚ) :
    (make_corr_graph corr pvals pcut ccut).w = corrW corr pvals pcut ccut := rfl

theorem make_corr_graph_edges (corr pvals : DF) (pcut ccut : ℚ) :
    (make_corr_graph corr pvals pcut ccut).edges
      = edgesOf (nodes0 corr pvals pcut ccut) (corrW corr pvals pcut ccut) := rfl

theorem make_corr_graph_nodes (corr pvals : DF) (pcut ccut : ℚ) :
    (make_corr_graph corr pvals pcut ccut).nodes
      = (nodes0 corr pvals pcut ccut).filter fun n =>
          (edgesOf (nodes0 corr pvals pcut ccut) (corrW corr pvals pcut ccut)).any
            fun e => e.1 = n ∨ e.2 = n := rfl

theorem corr_graph_w_isSome {corr pvals : DF} {pcut ccut : ℚ} {a b : Nat} :
    ((make_corr_graph corr pvals pcut ccut).w a b).isSome ↔
      ∃ e ∈ signiEntries corr pvals pcut ccut, 0 ≤ e.2.2 ∧ pairMatch e a b := by
  rw [make_corr_graph_w]
  unfold corrW
  rw [foldEdge_isSome]
  constructor
  · rintro (⟨e, he, h⟩ | h)
    · exact ⟨e, mem_sortedEntries.mp he, h⟩
    · cases h
  · rintro ⟨e, he, h⟩
    exact Or.inl ⟨e, mem_sortedEntries.mpr he, h⟩

theorem corr_graph_w_some {corr pvals : DF} {pcut ccut : ℚ} {a b : Nat} {x : ℚ}
    (h : (make_corr_graph corr pvals pcut ccut).w a b = some x) :
    ∃ e ∈ signiEntries corr pvals pcut ccut,
      0 ≤ e.2.2 ∧ pairMatch e a b ∧ |e.2.2| = x := by
  rw [make_corr_graph_w] at h
  unfold corrW at h
  rcases foldEdge_some h with ⟨e, he, hrest⟩ | hbad
  · exact ⟨e, mem_sortedEntries.mp he, hrest⟩
  · cases hbad

theorem corr_graph_edgeMem {corr pvals : DF} {pcut ccut : ℚ} {a b : Nat} :
    edgeMem (make_corr_graph corr pvals pcut ccut) a b ↔
      ∃ e ∈ signiEntries corr pvals pcut ccut, 0 ≤ e.2.2 ∧ pairMatch e a b := by
  constructor
  · rintro (h | h)
    · rw [make_corr_graph_edges] at h
      exact corr_graph_w_isSome.mp (mem_edgesOf.mp h).2.2.2
    · rw [make_corr_graph_edges] at h
      have hw := (mem_edgesOf.mp h).2.2.2
      rw [corrW_symm] at hw
      exact corr_graph_w_isSome.mp hw
  · rintro ⟨e, he, h0, hm⟩
    have ha : a ∈ nodes0 corr pvals pcut ccut := by
      refine mem_nodes0.mpr ⟨e, he, ?_⟩
      unfold pairMatch at hm; tauto
    have hb : b ∈ nodes0 corr pvals pcut ccut := by
      refine mem_nodes0.mpr ⟨e, he, ?_⟩
      unfold pairMatch at hm; tauto
    have hw : ((make_corr_graph corr pvals pcut ccut).w a b).isSome :=
      corr_graph_w_isSome.mpr ⟨e, he, h0, hm⟩
    rw [make_corr_graph_w] at hw
    rcases Nat.le_total a b with hab | hba
    · exact Or.inl (by rw [make_corr_graph_edges]; exact mem_edgesOf.mpr ⟨ha, hb, hab, hw⟩)
    · refine Or.inr (by
        rw [make_corr_graph_edges]
        refine mem_edgesOf.mpr ⟨hb, ha, hba, ?_⟩
        rw [corrW_symm]
        exact hw)

/-- Concrete matrix pair realizing the claim's negative-correlation example: a
single symmetric off-diagonal correlation of -0.9 with p-value 0.001. -/
def negCorrDF : DF :=
  ⟨[0, 1], [0, 1],
   fun r c => if (r = 0 ∧ c = 1) ∨ (r = 1 ∧ c = 0) then some (mkRat (-9) 10) else none⟩

/-- P-values matching negCorrDF. -/
def negPvalDF : DF :=
  ⟨[0, 1], [0, 1],
   fun r c => if (r = 0 ∧ c = 1) ∨ (r = 1 ∧ c = 0) then some (mkRat 1 1000) else none⟩

/-- Concrete matrix pair with a single symmetric positive correlation of 0.9 at
p-value 0.01. -/
def posCorrDF : DF :=
  ⟨[0, 1], [0, 1],
   fun r c => if (r = 0 ∧ c = 1) ∨ (r = 1 ∧ c = 0) then some (mkRat 9 10) else none⟩

/-- P-values matching posCorrDF. -/
def posPvalDF : DF :=
  ⟨[0, 1], [0, 1],
   fun r c => if (r = 0 ∧ c = 1) ∨ (r = 1 ∧ c = 0) then some (mkRat 1 100) else none⟩

/-- C2: make_corr_graph contains the undirected edge {a, b} iff some matrix
entry for that pair passes the p-value mask and the magnitude cutoff with a
non-negative value; any stored edge weight is the absolute value of such an
entry; every node of the returned graph is incident to at least one edge; and
the concrete negative example (correlation -0.9, p-value 0.001) produces a graph
with no nodes and no edges. -/
theorem corr_graph_edge_characterization (corr pvals : DF) (pcut ccut : ℚ) :
    (∀ a b, edgeMem (make_corr_graph corr pvals pcut ccut) a b ↔
      ∃ r c v, passingEntry corr pvals pcut ccut r c v ∧ 0 ≤ v ∧
        ((r = a ∧ c = b) ∨ (r = b ∧ c = a))) ∧
    (∀ a b x, (make_corr_graph corr pvals pcut ccut).w a b = some x →
      ∃ r c v, passingEntry corr pvals pcut ccut r c v ∧ 0 ≤ v ∧
        ((r = a ∧ c = b) ∨ (r = b ∧ c = a)) ∧ x = |v|) ∧
    (∀ n ∈ (make_corr_graph corr pvals pcut ccut).nodes,
      ∃ m, edgeMem (make_corr_graph corr pvals pcut ccut) n m) ∧
    ((make_corr_graph negCorrDF negPvalDF (mkRat 1 20) (mkRat 3 5)).nodes = [] ∧
      (make_corr_graph negCorrDF negPvalDF (mkRat 1 20) (mkRat 3 5)).edges = []) := by
  refine ⟨?_, ?_, ?_, by decide, by decide⟩
  · intro a b
    rw [corr_graph_edgeMem]
    constructor
    · rintro ⟨⟨r, c, v⟩, he, h0, hm⟩
      exact ⟨r, c, v, mem_signiEntries.mp he, h0, hm⟩
    · rintro ⟨r, c, v, hp, h0, hm⟩
      exact ⟨(r, c, v), mem_signiEntries.mpr hp, h0, hm⟩
  · intro a b x hw
    rcases corr_graph_w_some hw with ⟨⟨r, c, v⟩, he, h0, hm, hx⟩
    exact ⟨r, c, v, mem_signiEntries.mp he, h0, hm, hx.symm⟩
  · intro n hn
    rw [make_corr_graph_nodes] at hn
    have hany := List.of_mem_filter hn
    rcases List.any_eq_true.mp hany with ⟨e, he, hcond⟩
    rcases of_decide_eq_true hcond with h1 | h2
    · refine ⟨e.2, Or.inl ?_⟩
      rw [make_corr_graph_edges]
      have : e = (n, e.2) := by
        rcases e with ⟨e1, e2⟩
        simp only at h1
        rw [h1]
      rw [← this]
      exact he
    · refine ⟨e.1, Or.inr ?_⟩
      rw [make_corr_graph_edges]
      have : e = (e.1, n) := by
        rcases e with ⟨e1, e2⟩
        simp only at h2
        rw [h2]
      rw [← this]
      exact he

theorem corr_graph_edge_characterization_witness :
    edgeMem (make_corr_graph posCorrDF posPvalDF (mkRat 1 20) (mkRat 3 5)) 0 1 ∧
    (∃ r c v, passingEntry posCorrDF posPvalDF (mkRat 1 20) (mkRat 3 5) r c v ∧
      0 ≤ v ∧ ((r = 0 ∧ c = 1) ∨ (r = 1 ∧ c = 0))) := by
  have h := (corr_graph_edge_characterization posCorrDF posPvalDF
    (mkRat 1 20) (mkRat 3 5)).1 0 1
  refine ⟨h.mpr ⟨0, 1, mkRat 9 10, by decide, by decide, by decide⟩, h.mp ?_⟩
  decide

/-- C10: every stored edge weight of make_corr_graph is at least corr_cutoff and
equals the retained non-negative correlation value itself (whose absolute value
coincides with it); with the default cutoff 0.6 every weight is strictly
positive. -/
theorem corr_graph_weight_bounds (corr pvals : DF) (pcut ccut : ℚ) (hcc : 0 ≤ ccut)
    (a b : Nat) (x : ℚ)
    (hw : (make_corr_graph corr pvals pcut ccut).w a b = some x) :
    ccut ≤ x ∧ 0 ≤ x ∧
    (∃ r c v, passingEntry corr pvals pcut ccut r c v ∧ 0 ≤ v ∧ x = v ∧ |v| = v) ∧
    (mkRat 3 5 ≤ ccut → 0 < x) := by
  rcases corr_graph_w_some hw with ⟨⟨r, c, v⟩, he, h0, hm, hx⟩
  have hp := mem_signiEntries.mp he
  have habs : |v| = v := abs_of_nonneg h0
  have hxv : x = v := by rw [← hx]; exact habs
  have hcx : ccut ≤ x := by
    rw [← hx]
    exact hp.2.2.2
  refine ⟨hcx, le_trans hcc hcx, ⟨r, c, v, hp, h0, hxv, habs⟩, ?_⟩
  intro hdef
  have h35 : (0 : ℚ) < mkRat 3 5 := by decide
  exact lt_of_lt_of_le h35 (le_trans hdef hcx)

theorem corr_graph_weight_bounds_witness :
    mkRat 3 5 ≤ mkRat 9 10 ∧ (0 : ℚ) ≤ mkRat 9 10 ∧
    (∃ r c v, passingEntry posCorrDF posPvalDF (mkRat 1 20) (mkRat 3 5) r c v ∧
      0 ≤ v ∧ mkRat 9 10 = v ∧ |v| = v) ∧
    (mkRat 3 5 ≤ mkRat 3 5 → 0 < mkRat 9 10) :=
  corr_graph_weight_bounds posCorrDF posPvalDF (mkRat 1 20) (mkRat 3 5)
    (by decide) 0 1 (mkRat 9 10) (by decide)

/-! ## Lemmas on the mutual-isolation pruner -/

/-- The neighbor-shape condition under which the pass schedules a node: no
neighbors at all, or exactly one neighbor whose own sole neighbor is the node
(graph.py lines 26-32). -/
def specNb (G : CGraph) (n : Nat) : Prop :=
  neighborsOf G n = [] ∨ ∃ v, neighborsOf G n = [v] ∧ neighborsOf G v = [n]

/-- Processing node u schedules node n: either u is n itself and has the
removable shape, or n is the dyad partner appended together with u. -/
def trigger (G : CGraph) (u n : Nat) : Prop :=
  (u = n ∧ specNb G n) ∨ (neighborsOf G u = [n] ∧ neighborsOf G n = [u])

/-- The accumulator invariant of the pass: anything a scheduled node would
trigger is already scheduled (the code appends dyad partners in the same step,
so the skip on already-scheduled nodes loses nothing). -/
def accClosed (G : CGraph) (acc : List Nat) : Prop :=
  ∀ u ∈ acc, ∀ n, trigger G u n → n ∈ acc

theorem trigger_of_nil {G : CGraph} {u : Nat} (h : neighborsOf G u = []) (n : Nat) :
    trigger G u n ↔ n = u := by
  unfold trigger specNb
  constructor
  · rintro (⟨hEq, _⟩ | ⟨h1, _⟩)
    · exact hEq.symm
    · rw [h] at h1; cases h1
  · intro hEq
    subst hEq
    exact Or.inl ⟨rfl, Or.inl h⟩

theorem trigger_of_dyad {G : CGraph} {u nb : Nat} (h1 : neighborsOf G u = [nb])
    (h2 : neighborsOf G nb = [u]) (n : Nat) :
    trigger G u n ↔ n = u ∨ n = nb := by
  unfold trigger specNb
  constructor
  · rintro (⟨hEq, _⟩ | ⟨ha, _⟩)
    · exact Or.inl hEq.symm
    · rw [h1] at ha
      injection ha with ha _
      exact Or.inr ha.symm
  · rintro (hEq | hEq)
    · subst hEq
      exact Or.inl ⟨rfl, Or.inr ⟨nb, h1, h2⟩⟩
    · subst hEq
      exact Or.inr ⟨h1, h2⟩

theorem trigger_of_none {G : CGraph} {u : Nat}
    (hnotnil : neighborsOf G u ≠ [])
    (hnodyad : ∀ v, neighborsOf G u = [v] → neighborsOf G v ≠ [u]) (n : Nat) :
    ¬ trigger G u n := by
  unfold trigger specNb
  rintro (⟨hEq, hs⟩ | ⟨ha, hb⟩)
  · subst hEq
    rcases hs with h | ⟨v, hv1, hv2⟩
    · exact hnotnil h
    · exact hnodyad v hv1 hv2
  · exact hnodyad n ha hb

theorem stepRemove_of_mem {G : CGraph} {acc : List Nat} {u : Nat} (h : u ∈ acc) :
    stepRemove G acc u = acc := by
  unfold stepRemove; rw [if_pos h]

theorem stepRemove_nil {G : CGraph} {acc : List Nat} {u : Nat} (h : u ∉ acc)
    (hnb : neighborsOf G u = []) : stepRemove G acc u = acc ++ [u] := by
  unfold stepRemove; rw [if_neg h, hnb]

theorem stepRemove_single {G : CGraph} {acc : List Nat} {u nb : Nat} (h : u ∉ acc)
    (hnb : neighborsOf G u = [nb]) :
    stepRemove G acc u = partnerCheck G acc u nb := by
  unfold stepRemove; rw [if_neg h, hnb]

theorem stepRemove_dyad {G : CGraph} {acc : List Nat} {u nb : Nat} (h : u ∉ acc)
    (hnb : neighborsOf G u = [nb]) (hnn : neighborsOf G nb = [u]) :
    stepRemove G acc u = acc ++ [u, nb] := by
  rw [stepRemove_single h hnb]
  unfold partnerCheck
  rw [hnn]
  show (if u = u then acc ++ [u, nb] else acc) = acc ++ [u, nb]
  rw [if_pos rfl]

theorem stepRemove_stay_nbnil {G : CGraph} {acc : List Nat} {u nb : Nat} (h : u ∉ acc)
    (hnb : neighborsOf G u = [nb]) (h2 : neighborsOf G nb = []) :
    stepRemove G acc u = acc := by
  rw [stepRemove_single h hnb]
  unfold partnerCheck
  rw [h2]

theorem stepRemove_stay_nbmulti {G : CGraph} {acc : List Nat} {u nb a b : Nat}
    {l : List Nat} (h : u ∉ acc) (hnb : neighborsOf G u = [nb])
    (h2 : neighborsOf G nb = a :: b :: l) : stepRemove G acc u = acc := by
  rw [stepRemove_single h hnb]
  unfold partnerCheck
  rw [h2]

theorem stepRemove_stay_badpartner {G : CGraph} {acc : List Nat} {u nb nn : Nat}
    (h : u ∉ acc) (hnb : neighborsOf G u = [nb]) (h2 : neighborsOf G nb = [nn])
    (hne : nn ≠ u) : stepRemove G acc u = acc := by
  rw [stepRemove_single h hnb]
  unfold partnerCheck
  rw [h2]
  show (if nn = u then acc ++ [u, nb] else acc) = acc
  rw [if_neg hne]

theorem stepRemove_stay_multi {G : CGraph} {acc : List Nat} {u a b : Nat}
    {l : List Nat} (h : u ∉ acc) (hshape : neighborsOf G u = a :: b :: l) :
    stepRemove G acc u = acc := by
  unfold stepRemove; rw [if_neg h, hshape]

theorem stepRemove_spec (G : CGraph) (acc : List Nat) (u : Nat)
    (hacc : accClosed G acc) :
    (∀ n, n ∈ stepRemove G acc u ↔ (n ∈ acc ∨ trigger G u n)) ∧
    accClosed G (stepRemove G acc u) := by
  by_cases hu : u ∈ acc
  · rw [stepRemove_of_mem hu]
    exact ⟨fun n => ⟨Or.inl, fun h => h.elim id (hacc u hu n)⟩, hacc⟩
  · rcases hshape : neighborsOf G u with _ | ⟨nb, _ | ⟨nb2, rest⟩⟩
    · rw [stepRemove_nil hu hshape]
      have htr := trigger_of_nil hshape
      constructor
      · intro n
        rw [List.mem_append, List.mem_singleton, htr n]
      · intro v hv n htn
        rcases List.mem_append.mp hv with h | h
        · exact List.mem_append.mpr (Or.inl (hacc v h n htn))
        · rw [List.mem_singleton] at h
          subst h
          exact List.mem_append.mpr (Or.inr (List.mem_singleton.mpr ((htr n).mp htn)))
    · rcases h2 : neighborsOf G nb with _ | ⟨nn, _ | ⟨m2, r2⟩⟩
      · rw [stepRemove_stay_nbnil hu hshape h2]
        have htr := trigger_of_none (G := G) (u := u)
          (by rw [hshape]; exact fun hcontra => List.cons_ne_nil nb [] hcontra)
          (fun v hv => by
            rw [hshape] at hv
            injection hv with hv _
            subst hv
            rw [h2]
            exact fun hcontra => (List.cons_ne_nil u []) hcontra.symm)
        exact ⟨fun n => ⟨Or.inl, fun h => h.elim id (fun ht => absurd ht (htr n))⟩, hacc⟩
      · by_cases hnnu : nn = u
        · subst hnnu
          rw [stepRemove_dyad hu hshape h2]
          have htr := trigger_of_dyad hshape h2
          have htr2 := trigger_of_dyad h2 hshape
          constructor
          · intro n
            rw [List.mem_append, List.mem_pair, htr n]
          · intro v hv n htn
            rcases List.mem_append.mp hv with h | h
            · exact List.mem_append.mpr (Or.inl (hacc v h n htn))
            · rw [List.mem_pair] at h
              rcases h with hEq | hEq
              · subst hEq
                exact List.mem_append.mpr (Or.inr (List.mem_pair.mpr ((htr n).mp htn)))
              · subst hEq
                exact List.mem_append.mpr
                  (Or.inr (List.mem_pair.mpr (((htr2 n).mp htn).elim Or.inr Or.inl)))
        · rw [stepRemove_stay_badpartner hu hshape h2 hnnu]
          have htr := trigger_of_none (G := G) (u := u)
            (by rw [hshape]; exact fun hcontra => List.cons_ne_nil nb [] hcontra)
            (fun v hv => by
              rw [hshape] at hv
              injection hv with hv _
              subst hv
              rw [h2]
              intro hcontra
              injection hcontra with hcontra _
              exact hnnu hcontra)
          exact ⟨fun n => ⟨Or.inl, fun h => h.elim id (fun ht => absurd ht (htr n))⟩, hacc⟩
      · rw [stepRemove_stay_nbmulti hu hshape h2]
        have htr := trigger_of_none (G := G) (u := u)
          (by rw [hshape]; exact fun hcontra => List.cons_ne_nil nb [] hcontra)
          (fun v hv => by
            rw [hshape] at hv
            injection hv with hv _
            subst hv
            rw [h2]
            exact fun hcontra => by injection hcontra with _ htl; cases htl)
        exact ⟨fun n => ⟨Or.inl, fun h => h.elim id (fun ht => absurd ht (htr n))⟩, hacc⟩
    · rw [stepRemove_stay_multi hu hshape]
      have htr := trigger_of_none (G := G) (u := u)
        (by rw [hshape]; exact fun hcontra => List.cons_ne_nil nb (nb2 :: rest) hcontra)
        (fun v hv => by
          rw [hshape] at hv
          injection hv with _ htl
          cases htl)
      exact ⟨fun n => ⟨Or.inl, fun h => h.elim id (fun ht => absurd ht (htr n))⟩, hacc⟩

theorem foldRemove_spec (G : CGraph) (l : List Nat) :
    ∀ acc, accClosed G acc →
    (∀ n, n ∈ l.foldl (stepRemove G) acc ↔ (n ∈ acc ∨ ∃ u ∈ l, trigger G u n)) ∧
    accClosed G (l.foldl (stepRemove G) acc) := by
  induction l with
  | nil =>
      intro acc hacc
      refine ⟨fun n => ?_, hacc⟩
      simp
  | cons u rest ih =>
      intro acc hacc
      rw [List.foldl_cons]
      obtain ⟨hstep_mem, hstep_closed⟩ := stepRemove_spec G acc u hacc
      obtain ⟨hmem, hclosed⟩ := ih (stepRemove G acc u) hstep_closed
      refine ⟨fun n => ?_, hclosed⟩
      rw [hmem n, hstep_mem n]
      constructor
      · rintro ((h | h) | ⟨v, hv, ht⟩)
        · exact Or.inl h
        · exact Or.inr ⟨u, List.mem_cons_self u rest, h⟩
        · exact Or.inr ⟨v, List.mem_cons_of_mem u hv, ht⟩
      · rintro (h | ⟨v, hv, ht⟩)
        · exact Or.inl (Or.inl h)
        · rcases List.mem_cons.mp hv with hEq | hmem2
          · subst hEq
            exact Or.inl (Or.inr ht)
          · exact Or.inr ⟨v, hmem2, ht⟩

theorem mem_toRemoveL (G : CGraph) (n : Nat) :
    n ∈ toRemoveL G ↔ n ∈ G.nodes ∧ specNb G n := by
  unfold toRemoveL
  rw [(foldRemove_spec G G.nodes [] (fun u hu => absurd hu (List.not_mem_nil u))).1 n]
  simp only [List.not_mem_nil, false_or]
  constructor
  · rintro ⟨u, hu, ht⟩
    unfold trigger at ht
    rcases ht with ⟨hEq, hs⟩ | ⟨h1, h2⟩
    · subst hEq
      exact ⟨hu, hs⟩
    · refine ⟨?_, Or.inr ⟨u, h2, h1⟩⟩
      have hmemn : n ∈ neighborsOf G u := by
        rw [h1]; exact List.mem_singleton.mpr rfl
      exact List.mem_of_mem_filter hmemn
  · rintro ⟨hn, hs⟩
    exact ⟨n, hn, Or.inl ⟨rfl, hs⟩⟩

/-- The spec-side removal set of claim C5, phrased with degrees: degree-0 nodes
and the members of mutually-isolated dyads.  Degree is the number of distinct
neighbors (equal to graph degree on simple graphs; the source inspects neighbor
lists, which count a self-loop once). -/
def specRemoved (G : CGraph) (n : Nat) : Prop :=
  (neighborsOf G n).length = 0 ∨
    ∃ v, (neighborsOf G n).length = 1 ∧ (neighborsOf G v).length = 1 ∧
      neighborsOf G n = [v] ∧ neighborsOf G v = [n]

theorem specRemoved_iff_specNb (G : CGraph) (n : Nat) :
    specRemoved G n ↔ specNb G n := by
  unfold specRemoved specNb
  constructor
  · rintro (h | ⟨v, _, _, h1, h2⟩)
    · exact Or.inl (List.length_eq_zero.mp h)
    · exact Or.inr ⟨v, h1, h2⟩
  · rintro (h | ⟨v, h1, h2⟩)
    · exact Or.inl (by rw [h]; rfl)
    · exact Or.inr ⟨v, by rw [h1]; rfl, by rw [h2]; rfl, h1, h2⟩

/-- Decidable form of the removable-shape test, for building the spec-side
removal list. -/
def specBadB (G : CGraph) (n : Nat) : Bool :=
  match neighborsOf G n with
  | [] => true
  | [v] => decide (neighborsOf G v = [n])
  | _ => false

theorem specBadB_iff (G : CGraph) (n : Nat) : specBadB G n = true ↔ specNb G n := by
  unfold specBadB specNb
  rcases h : neighborsOf G n with _ | ⟨v, _ | ⟨v2, r⟩⟩
  · simp
  · show decide (neighborsOf G v = [n]) = true ↔ _
    rw [decide_eq_true_eq]
    constructor
    · intro hv
      exact Or.inr ⟨v, rfl, hv⟩
    · rintro (hcontra | ⟨v3, hv3, hnb⟩)
      · cases hcontra
      · injection hv3 with hv3 _
        subst hv3
        exact hnb
  · show (false = true) ↔ _
    constructor
    · intro hcontra
      cases hcontra
    · rintro (hcontra | ⟨v3, hv3, _⟩)
      · exact (List.cons_ne_nil _ _ hcontra).elim
      · injection hv3 with _ htl
        exact (List.cons_ne_nil _ _ htl).elim

/-- The spec-side pruned graph: remove the described set in one go, then remove
the nodes left isolated. -/
def specPrune (G : CGraph) : CGraph :=
  removeNodes (removeNodes G (G.nodes.filter fun n => specBadB G n))
    (isolatesOf (removeNodes G (G.nodes.filter fun n => specBadB G n)))

theorem removeNodes_congr (G : CGraph) {rm1 rm2 : List Nat}
    (h : ∀ x, x ∈ rm1 ↔ x ∈ rm2) : removeNodes G rm1 = removeNodes G rm2 := by
  unfold removeNodes
  congr 1
  · apply List.filter_congr
    intro x _
    exact decide_eq_decide.mpr (not_congr (h x))
  · apply List.filter_congr
    intro e _
    exact decide_eq_decide.mpr (and_congr (not_congr (h e.1)) (not_congr (h e.2)))
  · funext a b
    exact if_congr (or_congr (h a) (h b)) rfl rfl

theorem remove_G_pair_isolates_eq_spec (G : CGraph) :
    remove_G_pair_isolates G = specPrune G := by
  unfold remove_G_pair_isolates specPrune
  have h1 : removeNodes G (toRemoveL G)
      = removeNodes G (G.nodes.filter fun n => specBadB G n) := by
    apply removeNodes_congr
    intro x
    rw [mem_toRemoveL, List.mem_filter, specBadB_iff]
  rw [h1]

/-- C5: remove_G_pair_isolates returns the graph obtained from G by removing, in
one pass over the node set, exactly the degree-0 nodes and the mutually-isolated
dyad pairs (degree 1 on both sides, sole neighbors of each other), followed by
removal of the nodes left isolated; the one-pass to_remove list contains exactly
the nodes of that described set; and the concrete graph with nodes {A, B, C} and
the single edge A-B reduces to the empty graph. -/
theorem pruner_removes_described (G : CGraph) :
    (∀ n, n ∈ toRemoveL G ↔ n ∈ G.nodes ∧ specRemoved G n) ∧
    remove_G_pair_isolates G = specPrune G ∧
    (remove_G_pair_isolates ⟨[0, 1, 2], [(0, 1)], fun _ _ => none⟩).nodes = [] ∧
    (remove_G_pair_isolates ⟨[0, 1, 2], [(0, 1)], fun _ _ => none⟩).edges = [] := by
  refine ⟨fun n => ?_, remove_G_pair_isolates_eq_spec G, by decide, by decide⟩
  rw [mem_toRemoveL, specRemoved_iff_specNb]

theorem pruner_removes_described_witness :
    (0 ∈ toRemoveL ⟨[0, 1, 2], [(0, 1)], fun _ _ => none⟩ ↔
      0 ∈ (⟨[0, 1, 2], [(0, 1)], fun _ _ => none⟩ : CGraph).nodes ∧
        specRemoved ⟨[0, 1, 2], [(0, 1)], fun _ _ => none⟩ 0) ∧
    remove_G_pair_isolates ⟨[0, 1, 2], [(0, 1)], fun _ _ => none⟩
      = specPrune ⟨[0, 1, 2], [(0, 1)], fun _ _ => none⟩ := by
  have h := pruner_removes_described ⟨[0, 1, 2], [(0, 1)], fun _ _ => none⟩
  exact ⟨h.1 0, h.2.1⟩

/-! ## Lemmas on graph intersection -/

theorem foldl_filter_mem {α : Type} (p : α → CGraph → Prop)
    [∀ a h, Decidable (p a h)] (gs : List CGraph) (init : List α) (a : α) :
    a ∈ gs.foldl (fun l h => l.filter fun x => p x h) init ↔
      a ∈ init ∧ ∀ h ∈ gs, p a h := by
  induction gs generalizing init with
  | nil => simp
  | cons g rest ih =>
      rw [List.foldl_cons, ih]
      rw [List.mem_filter]
      constructor
      · rintro ⟨⟨h1, h2⟩, h3⟩
        refine ⟨h1, fun h hmem => ?_⟩
        rcases List.mem_cons.mp hmem with hEq | hmem2
        · subst hEq
          exact of_decide_eq_true h2
        · exact h3 h hmem2
      · rintro ⟨h1, h2⟩
        exact ⟨⟨h1, decide_eq_true (h2 g (List.mem_cons_self g rest))⟩,
          fun h hmem => h2 h (List.mem_cons_of_mem g hmem)⟩

theorem mem_intersection_nodes (g : CGraph) (gs : List CGraph) (n : Nat) :
    n ∈ (intersection_all g gs).nodes ↔ n ∈ g.nodes ∧ ∀ h ∈ gs, n ∈ h.nodes := by
  unfold intersection_all
  exact foldl_filter_mem (fun n h => n ∈ h.nodes) gs g.nodes n

theorem mem_intersection_edges (g : CGraph) (gs : List CGraph) (e : Nat × Nat) :
    e ∈ (intersection_all g gs).edges ↔ e ∈ g.edges ∧ ∀ h ∈ gs, e ∈ h.edges := by
  unfold intersection_all
  exact foldl_filter_mem (fun e h => e ∈ h.edges) gs g.edges e

/-- Layer matrices for the intersection example: layer 1 carries the path
X-Y, Y-Z (entities 0, 1, 2), layer 2 the star X-Y, X-Z; both graphs share the
node set {0, 1, 2} and the edge 0-1 and differ on the edge 1-2. -/
def interCorr1 : DF :=
  ⟨[0, 1, 2], [0, 1, 2],
   fun r c =>
     if (r = 0 ∧ c = 1) ∨ (r = 1 ∧ c = 0) ∨ (r = 1 ∧ c = 2) ∨ (r = 2 ∧ c = 1)
     then some (mkRat 9 10) else none⟩

/-- P-values for interCorr1. -/
def interPval1 : DF :=
  ⟨[0, 1, 2], [0, 1, 2],
   fun r c =>
     if (r = 0 ∧ c = 1) ∨ (r = 1 ∧ c = 0) ∨ (r = 1 ∧ c = 2) ∨ (r = 2 ∧ c = 1)
     then some (mkRat 1 100) else none⟩

/-- Second-layer correlations (star at entity 0). -/
def interCorr2 : DF :=
  ⟨[0, 1, 2], [0, 1, 2],
   fun r c =>
     if (r = 0 ∧ c = 1) ∨ (r = 1 ∧ c = 0) ∨ (r = 0 ∧ c = 2) ∨ (r = 2 ∧ c = 0)
     then some (mkRat 9 10) else none⟩

/-- P-values for interCorr2. -/
def interPval2 : DF :=
  ⟨[0, 1, 2], [0, 1, 2],
   fun r c =>
     if (r = 0 ∧ c = 1) ∨ (r = 1 ∧ c = 0) ∨ (r = 0 ∧ c = 2) ∨ (r = 2 ∧ c = 0)
     then some (mkRat 1 100) else none⟩

/-- C4 counterexample: two layers whose graphs share nodes {0, 1, 2} and edge
0-1 and differ on edge 1-2 (layer 1 has it, layer 2 does not).  The un-pruned
intersection is exactly nodes {0, 1, 2} with the single edge 0-1, but the
pruning step then removes the 0-1 dyad and the isolated node 2, so the graph
returned by make_intersection_graph is empty: it does not have nodes {X, Y} and
it does not contain the edge X-Y, contradicting the claim's stated outcome. -/
theorem intersection_prune_counterexample :
    (make_intersection_graph [interCorr1, interCorr2] [interPval1, interPval2]
        (mkRat 1 20) (mkRat 3 5) (fun _ => [])).map
      (fun r => (r.1.nodes, r.1.edges)) = some ([], []) ∧
    (make_corr_graph interCorr1 interPval1 (mkRat 1 20) (mkRat 3 5)).nodes = [0, 1, 2] ∧
    (make_corr_graph interCorr2 interPval2 (mkRat 1 20) (mkRat 3 5)).nodes = [0, 1, 2] ∧
    edgeMem (make_corr_graph interCorr1 interPval1 (mkRat 1 20) (mkRat 3 5)) 0 1 ∧
    edgeMem (make_corr_graph interCorr2 interPval2 (mkRat 1 20) (mkRat 3 5)) 0 1 ∧
    edgeMem (make_corr_graph interCorr1 interPval1 (mkRat 1 20) (mkRat 3 5)) 1 2 ∧
    ¬ edgeMem (make_corr_graph interCorr2 interPval2 (mkRat 1 20) (mkRat 3 5)) 1 2 ∧
    (intersection_all (make_corr_graph interCorr1 interPval1 (mkRat 1 20) (mkRat 3 5))
        [make_corr_graph interCorr2 interPval2 (mkRat 1 20) (mkRat 3 5)]).nodes
      = [0, 1, 2] ∧
    (intersection_all (make_corr_graph interCorr1 interPval1 (mkRat 1 20) (mkRat 3 5))
        [make_corr_graph interCorr2 interPval2 (mkRat 1 20) (mkRat 3 5)]).edges
      = [(0, 1)] := by
  refine ⟨?_, by decide, by decide, by decide, by decide, by decide, by decide,
    by decide, by decide⟩
  decide

/-- C4 amended: inside make_intersection_graph, the intersection computed before
pruning contains exactly the nodes and the edges common to every per-layer graph
(an edge survives iff an edge with the same endpoints is in every layer's
graph); in the particular two-layer situation with shared nodes {X, Y, Z} and
shared edge X-Y but disagreement on Y-Z, the result after pruning has at most
the nodes {X, Y} and at most the edge X-Y — here the empty graph, because the
X-Y dyad and the isolate Z are pruned away. -/
theorem intersection_graph_amended (corrs pvals : List DF) (pcut ccut : ℚ)
    (g : CGraph) (gs : List CGraph)
    (hz : List.zipWith (fun c p => make_corr_graph c p pcut ccut) corrs pvals
      = g :: gs) :
    (∀ n, n ∈ (intersection_all g gs).nodes ↔
      ∀ h ∈ List.zipWith (fun c p => make_corr_graph c p pcut ccut) corrs pvals,
        n ∈ h.nodes) ∧
    (∀ e, e ∈ (intersection_all g gs).edges ↔
      ∀ h ∈ List.zipWith (fun c p => make_corr_graph c p pcut ccut) corrs pvals,
        e ∈ h.edges) ∧
    (∀ G tc, make_intersection_graph corrs pvals pcut ccut (fun _ => []) = some (G, tc) →
      G = remove_G_pair_isolates (intersection_all g gs)) ∧
    (remove_G_pair_isolates (intersection_all ⟨[0, 1, 2], [(0, 1), (1, 2)], fun _ _ => none⟩
        [⟨[0, 1, 2], [(0, 1)], fun _ _ => none⟩])).nodes ⊆ [0, 1] ∧
    (remove_G_pair_isolates (intersection_all ⟨[0, 1, 2], [(0, 1), (1, 2)], fun _ _ => none⟩
        [⟨[0, 1, 2], [(0, 1)], fun _ _ => none⟩])).edges ⊆ [(0, 1)] := by
  refine ⟨?_, ?_, ?_, by decide, by decide⟩
  · intro n
    rw [mem_intersection_nodes, hz]
    constructor
    · rintro ⟨h1, h2⟩ h hmem
      rcases List.mem_cons.mp hmem with hEq | hmem2
      · subst hEq; exact h1
      · exact h2 h hmem2
    · intro hall
      exact ⟨hall g (List.mem_cons_self g gs),
        fun h hmem => hall h (List.mem_cons_of_mem g hmem)⟩
  · intro e
    rw [mem_intersection_edges, hz]
    constructor
    · rintro ⟨h1, h2⟩ h hmem
      rcases List.mem_cons.mp hmem with hEq | hmem2
      · subst hEq; exact h1
      · exact h2 h hmem2
    · intro hall
      exact ⟨hall g (List.mem_cons_self g gs),
        fun h hmem => hall h (List.mem_cons_of_mem g hmem)⟩
  · intro G tc hres
    unfold make_intersection_graph at hres
    rw [hz] at hres
    injection hres with hres
    exact (congrArg Prod.fst hres).symm

theorem intersection_graph_amended_witness :
    (∀ n, n ∈ (intersection_all
        (make_corr_graph interCorr1 interPval1 (mkRat 1 20) (mkRat 3 5)) []).nodes ↔
      ∀ h ∈ List.zipWith
          (fun c p => make_corr_graph c p (mkRat 1 20) (mkRat 3 5))
          [interCorr1] [interPval1],
        n ∈ h.nodes) ∧
    (remove_G_pair_isolates (intersection_all ⟨[0, 1, 2], [(0, 1), (1, 2)], fun _ _ => none⟩
        [⟨[0, 1, 2], [(0, 1)], fun _ _ => none⟩])).nodes ⊆ [0, 1] := by
  have h := intersection_graph_amended [interCorr1] [interPval1] (mkRat 1 20) (mkRat 3 5)
    (make_corr_graph interCorr1 interPval1 (mkRat 1 20) (mkRat 3 5)) [] rfl
  exact ⟨h.1, h.2.2.2.1⟩

/-! ## Lemmas on the result-frame labels of the dispatcher -/

theorem comb2_snd_mem {α : Type} (l : List α) (b : α) :
    (∃ a, (a, b) ∈ combinations2 l) ↔ b ∈ l.tail := by
  cases l with
  | nil => simp [combinations2]
  | cons x xs =>
      rw [combinations2]
      show _ ↔ b ∈ xs
      constructor
      · rintro ⟨a, ha⟩
        rcases List.mem_append.mp ha with h | h
        · rcases List.mem_map.mp h with ⟨z, hz, hEq⟩
          have hzb : z = b := congrArg Prod.snd hEq
          subst hzb
          exact hz
        · exact (comb2_mem_components h).2
      · intro hb
        exact ⟨x, List.mem_append.mpr (Or.inl (List.mem_map.mpr ⟨b, hb, rfl⟩))⟩

theorem comb2_fst_mem {α : Type} (l : List α) (a : α) :
    (∃ b, (a, b) ∈ combinations2 l) ↔ a ∈ l.dropLast := by
  induction l with
  | nil => simp [combinations2]
  | cons x xs ih =>
      cases xs with
      | nil => simp [combinations2]
      | cons y ys =>
          rw [combinations2, List.dropLast_cons₂, List.mem_cons]
          constructor
          · rintro ⟨b, hb⟩
            rcases List.mem_append.mp hb with h | h
            · rcases List.mem_map.mp h with ⟨z, _, hEq⟩
              exact Or.inl (congrArg Prod.fst hEq).symm
            · exact Or.inr ((ih).mp ⟨b, h⟩)
          · rintro (hEq | hmem)
            · subst hEq
              exact ⟨y, List.mem_append.mpr
                (Or.inl (List.mem_map.mpr ⟨y, List.mem_cons_self y ys, rfl⟩))⟩
            · rcases (ih).mpr hmem with ⟨b, hb⟩
              exact ⟨b, List.mem_append.mpr (Or.inr hb)⟩

theorem foldResults_cols (arrival : List (Nat × Nat)) (g : (Nat × Nat) → ℚ) :
    (foldResults (arrival.map fun p => (p.1, p.2, g p))).cols
      = (arrival.map fun p => p.1).dedup := by
  unfold foldResults
  rw [List.map_map]
  rfl

theorem foldResults_rows (arrival : List (Nat × Nat)) (g : (Nat × Nat) → ℚ) :
    (foldResults (arrival.map fun p => (p.1, p.2, g p))).rows
      = (arrival.map fun p => p.2).dedup := by
  show (List.map (fun r => r.2.1)
      (List.map (fun p => (p.1, p.2, g p)) arrival)).dedup = _
  rw [List.map_map]
  rfl

theorem mem_map_fst_pairs {l : List (Nat × Nat)} {x : Nat} :
    x ∈ l.map (fun p => p.1) ↔ ∃ y, (x, y) ∈ l := by
  rw [List.mem_map]
  constructor
  · rintro ⟨p, hp, hEq⟩
    exact ⟨p.2, by rw [show (x, p.2) = p from Prod.ext hEq.symm rfl]; exact hp⟩
  · rintro ⟨y, hy⟩
    exact ⟨(x, y), hy, rfl⟩

theorem mem_map_snd_pairs {l : List (Nat × Nat)} {y : Nat} :
    y ∈ l.map (fun p => p.2) ↔ ∃ x, (x, y) ∈ l := by
  rw [List.mem_map]
  constructor
  · rintro ⟨p, hp, hEq⟩
    exact ⟨p.1, by rw [show (p.1, y) = p from Prod.ext rfl hEq.symm]; exact hp⟩
  · rintro ⟨x, hx⟩
    exact ⟨(x, y), hx, rfl⟩

/-- C1 amended: when the level name exists and the arrivals are the generated
pairs (in any completion order), the two returned frames are (n-1) by (n-1) with
entity-id labels and share their label sets with each other, but within each
frame the column labels are all entities except the last and the row labels all
entities except the first (first-occurrence order of the distinct row index),
so the row-label set differs from the column-label set. -/
theorem dispatcher_frame_labels (df : InputDF) (name : String)
    (arrival : List (Nat × Nat)) (compute : Nat → Nat → ℚ × ℚ)
    (co pv : ResFrame)
    (hname : name ∈ df.colNames)
    (hperm : arrival.Perm (dispatchPairs df))
    (hn : 2 ≤ df.index.dedup.length)
    (hok : bootstrap_spearman_corr_parallel df name arrival compute = .ok (co, pv)) :
    co.cols.toFinset = df.index.dedup.dropLast.toFinset ∧
    co.rows.toFinset = df.index.dedup.tail.toFinset ∧
    pv.cols = co.cols ∧ pv.rows = co.rows ∧
    co.cols.length = df.index.dedup.length - 1 ∧
    co.rows.length = df.index.dedup.length - 1 ∧
    co.rows.toFinset ≠ co.cols.toFinset := by
  have hnd : df.index.dedup.Nodup := List.nodup_dedup df.index
  unfold bootstrap_spearman_corr_parallel at hok
  rw [if_pos hname] at hok
  injection hok with hok
  have hco : co = foldResults (arrival.map fun p => (p.1, p.2, (compute p.1 p.2).1)) :=
    (congrArg Prod.fst hok).symm
  have hpv : pv = foldResults (arrival.map fun p => (p.1, p.2, (compute p.1 p.2).2)) :=
    (congrArg Prod.snd hok).symm
  have hcols : co.cols = (arrival.map fun p => p.1).dedup := by
    rw [hco, foldResults_cols arrival (fun p => (compute p.1 p.2).1)]
  have hrows : co.rows = (arrival.map fun p => p.2).dedup := by
    rw [hco, foldResults_rows arrival (fun p => (compute p.1 p.2).1)]
  have hmc : ∀ x, x ∈ co.cols ↔ x ∈ df.index.dedup.dropLast := by
    intro x
    rw [hcols, List.mem_dedup, mem_map_fst_pairs, ← comb2_fst_mem]
    exact exists_congr fun y => hperm.mem_iff
  have hmr : ∀ y, y ∈ co.rows ↔ y ∈ df.index.dedup.tail := by
    intro y
    rw [hrows, List.mem_dedup, mem_map_snd_pairs, ← comb2_snd_mem]
    exact exists_congr fun x => hperm.mem_iff
  have hfc : co.cols.toFinset = df.index.dedup.dropLast.toFinset :=
    List.toFinset.ext hmc
  have hfr : co.rows.toFinset = df.index.dedup.tail.toFinset :=
    List.toFinset.ext hmr
  have hndc : co.cols.Nodup := by rw [hcols]; exact List.nodup_dedup _
  have hndr : co.rows.Nodup := by rw [hrows]; exact List.nodup_dedup _
  have hlc : co.cols.length = df.index.dedup.length - 1 := by
    have h1 := List.toFinset_card_of_nodup hndc
    have h2 := List.toFinset_card_of_nodup
      ((List.dropLast_sublist df.index.dedup).nodup hnd)
    rw [hfc, h2, List.length_dropLast] at h1
    exact h1.symm
  have hlr : co.rows.length = df.index.dedup.length - 1 := by
    have h1 := List.toFinset_card_of_nodup hndr
    have h2 := List.toFinset_card_of_nodup
      ((List.tail_sublist df.index.dedup).nodup hnd)
    rw [hfr, h2, List.length_tail] at h1
    exact h1.symm
  refine ⟨hfc, hfr, ?_, ?_, hlc, hlr, ?_⟩
  · rw [hpv, hco, foldResults_cols arrival (fun p => (compute p.1 p.2).2),
      foldResults_cols arrival (fun p => (compute p.1 p.2).1)]
  · rw [hpv, hco, foldResults_rows arrival (fun p => (compute p.1 p.2).2),
      foldResults_rows arrival (fun p => (compute p.1 p.2).1)]
  · intro hEq
    rcases he : df.index.dedup with _ | ⟨a, _ | ⟨b, rest⟩⟩
    · rw [he] at hn; simp at hn
    · rw [he] at hn; simp at hn
    · have hamem : a ∈ co.cols := by
        rw [hmc a, he, List.dropLast_cons₂]
        exact List.mem_cons_self a _
      have hanot : a ∉ co.rows := by
        rw [hmr a, he]
        intro hmem
        have : a ∉ b :: rest := by
          rw [he] at hnd
          exact (List.nodup_cons.mp hnd).1
        exact this hmem
      have : a ∈ co.rows := by
        have h1 : a ∈ co.cols.toFinset := List.mem_toFinset.mpr hamem
        rw [← hEq] at h1
        exact List.mem_toFinset.mp h1
      exact hanot this

/-- Concrete two-entity input realizing the C1 counterexample. -/
def twoEntityDF : InputDF := ⟨[10, 20], ["time"]⟩

/-- C1 counterexample: on a table with the two distinct entities 10 and 20, the
returned correlation frame has row labels [20] and column labels [10] — the
row-label set and the column-label set are not the same, contradicting the
claim. -/
theorem dispatcher_frame_labels_counterexample :
    (bootstrap_spearman_corr_parallel twoEntityDF "time" (dispatchPairs twoEntityDF)
        (fun _ _ => (1, 1))).toOption.map (fun r => (r.1.rows, r.1.cols))
      = some ([20], [10]) ∧
    ([20] : List Nat).toFinset ≠ ([10] : List Nat).toFinset := by
  constructor
  · rfl
  · intro h
    have : (20 : Nat) ∈ ([10] : List Nat).toFinset := by
      rw [← h]
      exact List.mem_toFinset.mpr (List.mem_singleton.mpr rfl)
    rw [List.mem_toFinset, List.mem_singleton] at this
    cases this

theorem dispatcher_frame_labels_witness :
    ∃ co pv : ResFrame,
      bootstrap_spearman_corr_parallel ⟨[3, 4, 5], ["time"]⟩ "time"
          (dispatchPairs ⟨[3, 4, 5], ["time"]⟩) (fun _ _ => (1, 1)) = .ok (co, pv) ∧
      co.cols.toFinset = ([3, 4, 5] : List Nat).dedup.dropLast.toFinset ∧
      co.rows.toFinset = ([3, 4, 5] : List Nat).dedup.tail.toFinset ∧
      co.rows.toFinset ≠ co.cols.toFinset := by
  have hifpos : bootstrap_spearman_corr_parallel ⟨[3, 4, 5], ["time"]⟩ "time"
      (dispatchPairs ⟨[3, 4, 5], ["time"]⟩) (fun _ _ => (1, 1))
      = .ok
        (foldResults ((dispatchPairs ⟨[3, 4, 5], ["time"]⟩).map
          fun p => (p.1, p.2, (1 : ℚ))),
         foldResults ((dispatchPairs ⟨[3, 4, 5], ["time"]⟩).map
          fun p => (p.1, p.2, (1 : ℚ)))) := rfl
  have h := dispatcher_frame_labels ⟨[3, 4, 5], ["time"]⟩ "time"
    (dispatchPairs ⟨[3, 4, 5], ["time"]⟩) (fun _ _ => (1, 1)) _ _
    (by decide) (List.Perm.refl _) (by decide) hifpos
  exact ⟨_, _, hifpos, h.1, h.2.1, h.2.2.2.2.2.2⟩

/-! ## Lemmas on the community translation loop -/

theorem transCommAux_keys (k : Nat) (comms : List (List Nat)) :
    (transCommAux k comms).map Prod.fst = comms.flatMap id := by
  induction comms generalizing k with
  | nil => rfl
  | cons comm rest ih =>
      show ((comm.map fun b => (b, k)) ++ transCommAux (k + 1) rest).map Prod.fst
        = comm ++ rest.flatMap id
      rw [List.map_append, List.map_map, ih]
      congr 1
      exact List.map_id comm

theorem transCommAux_val_bound :
    ∀ (comms : List (List Nat)) {k b c}, (b, c) ∈ transCommAux k comms →
      k ≤ c ∧ c < k + comms.length := by
  intro comms
  induction comms with
  | nil => intro k b c h; cases h
  | cons comm rest ih =>
      intro k b c h
      rcases List.mem_append.mp h with h | h
      · rcases List.mem_map.mp h with ⟨b0, _, hEq⟩
        have hc : k = c := congrArg Prod.snd hEq
        subst hc
        simp only [List.length_cons]
        omega
      · rcases ih h with ⟨h1, h2⟩
        simp only [List.length_cons]
        omega

theorem transCommAux_dense :
    ∀ (comms : List (List Nat)), [] ∉ comms →
      ∀ k i, i < comms.length → ∃ b, (b, k + i) ∈ transCommAux k comms := by
  intro comms
  induction comms with
  | nil =>
      intro _ k i hi
      simp at hi
  | cons comm rest ih =>
      intro hne k i hi
      cases i with
      | zero =>
          rcases comm with _ | ⟨b, bs⟩
          · exact absurd (List.mem_cons_self [] rest) hne
          · refine ⟨b, List.mem_append.mpr (Or.inl ?_)⟩
            rw [Nat.add_zero]
            exact List.mem_map.mpr ⟨b, List.mem_cons_self b bs, rfl⟩
      | succ j =>
          have hne2 : [] ∉ rest := fun h => hne (List.mem_cons_of_mem comm h)
          have hj : j < rest.length := by
            simp only [List.length_cons] at hi
            omega
          rcases ih hne2 (k + 1) j hj with ⟨b, hb⟩
          refine ⟨b, List.mem_append.mpr (Or.inr ?_)⟩
          have : k + (j + 1) = k + 1 + j := by omega
          rw [this]
          exact hb

theorem find?_key_unique {m : List (Nat × Nat)} (hnd : (m.map Prod.fst).Nodup)
    {n c : Nat} (hmem : (n, c) ∈ m) :
    m.find? (fun q => decide (q.1 = n)) = some (n, c) := by
  induction m with
  | nil => cases hmem
  | cons p rest ih =>
      rw [List.map_cons] at hnd
      rcases List.mem_cons.mp hmem with hEq | hmem2
      · subst hEq
        rw [List.find?_cons_of_pos _ (by simp)]
      · have hkey : ¬ (p.1 = n) := by
          intro hEq
          have : n ∈ rest.map Prod.fst := List.mem_map.mpr ⟨(n, c), hmem2, rfl⟩
          exact (List.nodup_cons.mp hnd).1 (hEq ▸ this)
        rw [List.find?_cons_of_neg]
        · exact ih (List.nodup_cons.mp hnd).2 hmem2
        · simp [hkey]

theorem dictLookup_of_mem {m : List (Nat × Nat)} (hnd : (m.map Prod.fst).Nodup)
    {n c : Nat} (hmem : (n, c) ∈ m) : dictLookup m n = some c := by
  unfold dictLookup
  have hr : (m.reverse.map Prod.fst).Nodup := by
    rw [List.map_reverse]
    exact List.nodup_reverse.mpr hnd
  rw [find?_key_unique hr (List.mem_reverse.mpr hmem)]
  rfl

theorem dictLookup_eq_none {m : List (Nat × Nat)} {n : Nat}
    (h : n ∉ m.map Prod.fst) : dictLookup m n = none := by
  unfold dictLookup
  rw [List.find?_eq_none.mpr]
  · rfl
  · intro q hq
    simp only [decide_eq_true_eq]
    intro hEq
    exact h (List.mem_map.mpr ⟨q, List.mem_reverse.mp hq, hEq⟩)

theorem key_val_unique {m : List (Nat × Nat)} (hnd : (m.map Prod.fst).Nodup)
    {n c c2 : Nat} (h1 : (n, c) ∈ m) (h2 : (n, c2) ∈ m) : c2 = c := by
  have hinj := List.inj_on_of_nodup_map hnd
  have := hinj h2 h1 rfl
  exact congrArg Prod.snd this

/-! ## Node-list Nodup invariants -/

theorem foldl_filter_nodup {α : Type} (p : α → CGraph → Bool) (gs : List CGraph)
    (init : List α) (h : init.Nodup) :
    (gs.foldl (fun l g => l.filter fun x => p x g) init).Nodup := by
  induction gs generalizing init with
  | nil => exact h
  | cons g rest ih => exact ih _ (h.filter _)

theorem make_corr_graph_nodes_nodup (corr pvals : DF) (pcut ccut : ℚ) :
    (make_corr_graph corr pvals pcut ccut).nodes.Nodup := by
  rw [make_corr_graph_nodes]
  exact (insSort_nodup _ _ (List.nodup_dedup _)).filter _

theorem intersection_all_nodes_nodup (g : CGraph) (gs : List CGraph)
    (h : g.nodes.Nodup) : (intersection_all g gs).nodes.Nodup :=
  foldl_filter_nodup _ gs g.nodes h

theorem remove_G_pair_isolates_nodes_nodup (G : CGraph) (h : G.nodes.Nodup) :
    (remove_G_pair_isolates G).nodes.Nodup := by
  unfold remove_G_pair_isolates removeNodes
  exact (h.filter _).filter _

/-- C6: the node-to-community mapping returned by make_intersection_graph is a
partition labelling of the returned pruned intersection graph: given Louvain's
documented contract (its communities are nonempty and jointly enumerate the
graph's nodes once), every node of the graph carries exactly one community id,
the ids are dense integers starting at 0, the concatenation of the community
member lists is a permutation of the node set (union equals node set, no
overlap), and a node absent from the graph is absent from the mapping. -/
theorem community_mapping_partition (corrs pvals : List DF) (pcut ccut : ℚ)
    (louvain : CGraph → List (List Nat)) (G : CGraph) (tc : List (Nat × Nat))
    (hres : make_intersection_graph corrs pvals pcut ccut louvain = some (G, tc))
    (hcover : ((louvain G).flatMap id).Perm G.nodes)
    (hne : [] ∉ louvain G) :
    (tc.map Prod.fst).Perm G.nodes ∧
    (∀ n ∈ G.nodes, ∃ c, dictLookup tc n = some c ∧ ∀ c2, (n, c2) ∈ tc → c2 = c) ∧
    (∀ n c, (n, c) ∈ tc → c < (louvain G).length) ∧
    (∀ i, i < (louvain G).length → ∃ n, (n, i) ∈ tc) ∧
    (∀ n, n ∉ G.nodes → dictLookup tc n = none) := by
  obtain ⟨htc, hndG⟩ : tc = transComm (louvain G) ∧ G.nodes.Nodup := by
    rcases corrs with _ | ⟨c, cs⟩
    · exact Option.noConfusion hres
    · rcases pvals with _ | ⟨p, ps⟩
      · exact Option.noConfusion hres
      · unfold make_intersection_graph at hres
        rw [List.zipWith_cons_cons] at hres
        injection hres with hres
        have hG : G = remove_G_pair_isolates
            (intersection_all (make_corr_graph c p pcut ccut)
              (List.zipWith (fun c2 p2 => make_corr_graph c2 p2 pcut ccut) cs ps)) :=
          (congrArg Prod.fst hres).symm
        refine ⟨?_, ?_⟩
        · have h2 := (congrArg Prod.snd hres).symm
          rw [hG]
          exact h2
        · rw [hG]
          exact remove_G_pair_isolates_nodes_nodup _
            (intersection_all_nodes_nodup _ _ (make_corr_graph_nodes_nodup c p pcut ccut))
  have hkeys : tc.map Prod.fst = (louvain G).flatMap id := by
    rw [htc]
    exact transCommAux_keys 0 (louvain G)
  have hkeysperm : (tc.map Prod.fst).Perm G.nodes := by
    rw [hkeys]
    exact hcover
  have hkeysnodup : (tc.map Prod.fst).Nodup := hkeysperm.nodup_iff.mpr hndG
  refine ⟨hkeysperm, ?_, ?_, ?_, ?_⟩
  · intro n hn
    have hmemkeys : n ∈ tc.map Prod.fst := hkeysperm.mem_iff.mpr hn
    rcases List.mem_map.mp hmemkeys with ⟨q, hq, hq1⟩
    have hq2 : (n, q.2) ∈ tc := by
      rw [show (n, q.2) = q from Prod.ext hq1.symm rfl]
      exact hq
    exact ⟨q.2, dictLookup_of_mem hkeysnodup hq2,
      fun c2 h2 => key_val_unique hkeysnodup hq2 h2⟩
  · intro n c hmem
    rw [htc] at hmem
    have := (transCommAux_val_bound (louvain G) hmem).2
    omega
  · intro i hi
    rcases transCommAux_dense (louvain G) hne 0 i hi with ⟨b, hb⟩
    refine ⟨b, ?_⟩
    rw [htc]
    have : i = 0 + i := by omega
    rw [this]
    exact hb
  · intro n hn
    apply dictLookup_eq_none
    intro hmem
    exact hn (hkeysperm.mem_iff.mp hmem)

/-- Correlation matrix of a three-entity triangle layer (all off-diagonal
correlations 0.9). -/
def triCorr : DF :=
  ⟨[0, 1, 2], [0, 1, 2], fun r c => if r = c then none else some (mkRat 9 10)⟩

/-- P-values for triCorr (all off-diagonal 0.01). -/
def triPval : DF :=
  ⟨[0, 1, 2], [0, 1, 2], fun r c => if r = c then none else some (mkRat 1 100)⟩

/-- A concrete stand-in for the Louvain oracle: one community holding all
nodes. -/
def triLouvain : CGraph → List (List Nat) := fun g => [g.nodes]

/-- The pruned intersection graph of the single triangle layer. -/
def triG : CGraph :=
  remove_G_pair_isolates
    (intersection_all (make_corr_graph triCorr triPval (mkRat 1 20) (mkRat 3 5)) [])

theorem community_mapping_partition_witness :
    ((transComm (triLouvain triG)).map Prod.fst).Perm triG.nodes ∧
    (∀ n, n ∉ triG.nodes → dictLookup (transComm (triLouvain triG)) n = none) := by
  have h := community_mapping_partition [triCorr] [triPval] (mkRat 1 20) (mkRat 3 5)
    triLouvain triG (transComm (triLouvain triG)) rfl (by decide) (by decide)
  exact ⟨h.1, h.2.2.2.2⟩

/-! ## Lemmas on the bootstrap estimator's NaN propagation -/

theorem groupVals_length_count (s : Series) (l : Nat) :
    (groupVals s l).length = (s.map Prod.fst).count l := by
  induction s with
  | nil => rfl
  | cons p rest ih =>
      show (List.filterMap (fun q => if q.1 = l then some q.2 else none)
        (p :: rest)).length = ((p.1 :: rest.map Prod.fst).count l)
      rw [List.filterMap_cons, List.count_cons]
      by_cases h : p.1 = l
      · rw [if_pos h]
        show (p.2 :: groupVals rest l).length = _
        rw [List.length_cons, ih]
        have hb : (p.1 == l) = true := beq_iff_eq.mpr h
        rw [hb]
        simp
      · rw [if_neg h]
        show (groupVals rest l).length = _
        rw [ih]
        have hb : (p.1 == l) = false := by
          rw [beq_eq_false_iff_ne]
          exact h
        rw [hb]
        simp

theorem calc_norm_dict_keys (s : Series) :
    (calc_norm_dict s).map Prod.fst
      = insSort (fun a b => decide (a ≤ b)) ((s.map Prod.fst).dedup) := by
  unfold calc_norm_dict
  rw [List.map_map]
  exact List.map_id _

theorem calc_norm_dict_keys_nodup (s : Series) :
    ((calc_norm_dict s).map Prod.fst).Nodup := by
  rw [calc_norm_dict_keys]
  exact insSort_nodup _ _ (List.nodup_dedup _)

theorem calc_norm_dict_keys_mem (s : Series) (l : Nat) :
    l ∈ (calc_norm_dict s).map Prod.fst ↔ l ∈ s.map Prod.fst := by
  rw [calc_norm_dict_keys, mem_insSort, List.mem_dedup]

theorem calc_norm_dict_var {s : Series} {lab : Nat} {d : NormDist}
    (h : (lab, d) ∈ calc_norm_dict s) : d.varQ = sampleVar (groupVals s lab) := by
  unfold calc_norm_dict at h
  rcases List.mem_map.mp h with ⟨l, _, hEq⟩
  rw [Prod.mk.injEq] at hEq
  obtain ⟨h1, h2⟩ := hEq
  subst h1
  rw [← h2]

theorem sampleVar_singleton {vs : List ℚ} (h : vs.length = 1) :
    sampleVar vs = none := by
  unfold sampleVar
  rw [if_pos (by omega)]

theorem drawVec_has_none {d : List (Nat × NormDist)} {z : Nat → ℚ} {lab : Nat}
    {dist : NormDist} (hmem : (lab, dist) ∈ d) (hvar : dist.varQ = none) :
    none ∈ drawVec d z := by
  unfold drawVec
  refine List.mem_map.mpr ⟨(lab, dist), hmem, ?_⟩
  show drawFrom dist (z lab) = none
  unfold drawFrom
  rw [hvar]

theorem allSome_of_mem_none {xs : List (Option ℚ)} (h : none ∈ xs) :
    allSome xs = none := by
  induction xs with
  | nil => cases h
  | cons x rest ih =>
      rcases List.mem_cons.mp h with hEq | hmem
      · rw [← hEq]
        rfl
      · cases x with
        | none => rfl
        | some v =>
            show (allSome rest).map _ = none
            rw [ih hmem]
            rfl

theorem bootstrapIter_of_none {d1 d2 : List (Nat × NormDist)} {z1 z2 : Nat → Nat → ℚ}
    {pvK : List ℚ → List ℚ → ℚ} {t : Nat}
    (h : allSome (drawVec d1 (z1 t)) = none) :
    bootstrapIter d1 d2 z1 z2 pvK t = (none, none) := by
  unfold bootstrapIter
  rw [h]

theorem meanQ_of_none {xs : List (Option ℚ)} (h : allSome xs = none) :
    meanQ xs = none := by
  unfold meanQ
  rw [h]

theorem percentile_of_none {xs : List (Option ℚ)} (q : ℚ) (h : allSome xs = none) :
    percentile xs q = none := by
  unfold percentile
  rw [h]

theorem combineP_of_none {xs : List (Option ℚ)} (combK : List ℚ → ℚ)
    (h : allSome xs = none) : combineP xs combK = none := by
  unfold combineP
  rw [h]

/-- C7: a series holding a replicate label with exactly one observation yields,
from _calc_norm_dict, exactly one distribution per distinct label, with a NaN
scale (undefined variance) for the singleton label; and
bootstrap_spearman_correlation on such input returns NaN-valued results — the
NaN draws propagate through every iteration into the mean correlation, both
percentile bounds and the combined p-value — for every randomness oracle and
every external numeric kernel, with no error path taken (the embedding is total
exactly as the source raises nothing on this input). -/
theorem singleton_replicate_nan (s1 s2 : Series) (lab : Nat) (n : Nat)
    (z1 z2 : Nat → Nat → ℚ) (pvK : List ℚ → List ℚ → ℚ) (combK : List ℚ → ℚ)
    (hlab : (s1.map Prod.fst).count lab = 1) (hn : 1 ≤ n) :
    ((calc_norm_dict s1).map Prod.fst).Nodup ∧
    (∀ l, l ∈ (calc_norm_dict s1).map Prod.fst ↔ l ∈ s1.map Prod.fst) ∧
    (∀ d, (lab, d) ∈ calc_norm_dict s1 → d.varQ = none) ∧
    (bootstrap_spearman_correlation s1 s2 n z1 z2 pvK combK).meanCorr = none ∧
    (bootstrap_spearman_correlation s1 s2 n z1 z2 pvK combK).ciLow = none ∧
    (bootstrap_spearman_correlation s1 s2 n z1 z2 pvK combK).ciHigh = none ∧
    (bootstrap_spearman_correlation s1 s2 n z1 z2 pvK combK).combinedP = none := by
  have hvar : ∀ d, (lab, d) ∈ calc_norm_dict s1 → d.varQ = none := by
    intro d hd
    rw [calc_norm_dict_var hd]
    apply sampleVar_singleton
    rw [groupVals_length_count]
    exact hlab
  have hmemlab : lab ∈ s1.map Prod.fst := by
    have : 0 < (s1.map Prod.fst).count lab := by omega
    exact List.count_pos_iff.mp this
  obtain ⟨dist, hdist⟩ : ∃ dist, (lab, dist) ∈ calc_norm_dict s1 := by
    have hk : lab ∈ (calc_norm_dict s1).map Prod.fst :=
      (calc_norm_dict_keys_mem s1 lab).mpr hmemlab
    rcases List.mem_map.mp hk with ⟨q, hq, hq1⟩
    exact ⟨q.2, by rw [show (lab, q.2) = q from Prod.ext hq1.symm rfl]; exact hq⟩
  have hdrawnone : ∀ t, allSome (drawVec (calc_norm_dict s1) (z1 t)) = none :=
    fun t => allSome_of_mem_none (drawVec_has_none hdist (hvar dist hdist))
  have hiter : ∀ t, bootstrapIter (calc_norm_dict s1) (calc_norm_dict s2) z1 z2 pvK t
      = (none, none) := fun t => bootstrapIter_of_none (hdrawnone t)
  have hfstnone : none ∈ (((List.range n).map
      (bootstrapIter (calc_norm_dict s1) (calc_norm_dict s2) z1 z2 pvK)).map
        Prod.fst) := by
    refine List.mem_map.mpr ⟨((none : Option ℚ), (none : Option ℚ)), ?_, rfl⟩
    refine List.mem_map.mpr ⟨0, List.mem_range.mpr (by omega), hiter 0⟩
  have hsndnone : none ∈ (((List.range n).map
      (bootstrapIter (calc_norm_dict s1) (calc_norm_dict s2) z1 z2 pvK)).map
        Prod.snd) := by
    refine List.mem_map.mpr ⟨((none : Option ℚ), (none : Option ℚ)), ?_, rfl⟩
    refine List.mem_map.mpr ⟨0, List.mem_range.mpr (by omega), hiter 0⟩
  refine ⟨calc_norm_dict_keys_nodup s1, calc_norm_dict_keys_mem s1, hvar, ?_, ?_, ?_, ?_⟩
  · exact meanQ_of_none (allSome_of_mem_none hfstnone)
  · exact percentile_of_none _ (allSome_of_mem_none hfstnone)
  · exact percentile_of_none _ (allSome_of_mem_none hfstnone)
  · exact combineP_of_none _ (allSome_of_mem_none hsndnone)

theorem singleton_replicate_nan_witness :
    (((calc_norm_dict [(0, 1), (1, 2), (1, 3)]).map Prod.fst).Nodup) ∧
    (∀ d, (0, d) ∈ calc_norm_dict [(0, 1), (1, 2), (1, 3)] → d.varQ = none) ∧
    (bootstrap_spearman_correlation [(0, 1), (1, 2), (1, 3)] [(0, 1), (1, 2)] 1
      (fun _ _ => 0) (fun _ _ => 0) (fun _ _ => 0) (fun _ => 0)).meanCorr = none ∧
    (bootstrap_spearman_correlation [(0, 1), (1, 2), (1, 3)] [(0, 1), (1, 2)] 1
      (fun _ _ => 0) (fun _ _ => 0) (fun _ _ => 0) (fun _ => 0)).combinedP = none := by
  have h := singleton_replicate_nan [(0, 1), (1, 2), (1, 3)] [(0, 1), (1, 2)] 0 1
    (fun _ _ => 0) (fun _ _ => 0) (fun _ _ => 0) (fun _ => 0)
    (by decide) (by decide)
  exact ⟨h.1, h.2.2.1, h.2.2.2.1, h.2.2.2.2.2.2⟩

end Intersectomics
